import Mathlib

/-!
# Event processor: replay producer and state-reducing consumer

A shallow embedding of the Go sources

* `internal/models/message.go`   (the envelope data model),
* `internal/consumer/handler.go` (the reducer writing to the Redis hash store),
* `internal/producer/parser.go`  (the capture-file parser),
* `internal/producer/sender.go`  (the paced replay loop),
* `cmd/producer/main.go`         (the producer's `run`).

Conventions.  A Go `time.Time` is an integer count of nanoseconds since the
zero time, so `t.IsZero()` is `t = 0` and `a.Before(b)` is `a < b`.  Go `int`
fields are only stored and printed, never computed with, so they are `Int`.
A Go `string` is a Lean `String`; the parser inspects a line only at the ASCII
double quote, which is one byte and one character, so positions counted in
bytes and in characters agree where the code looks.  A Go `error` is its
message; `none` is the `nil` error.  Library calls whose code is outside the
repository (`json.Unmarshal`, `sort.Slice`, `time.Format`, the Redis client,
the HTTP client, the clock, the choice a `select` makes) are parameters of the
definitions that use them.
-/

namespace EventProcessor

/-! ## internal/models/message.go -/

/-- Go `time.Time`: nanoseconds since the zero time. -/
abbrev Time := Int

/-- Go `Time.IsZero`. -/
def Time.IsZero (t : Time) : Bool := decide (t = 0)

/-- Go `Time.Before`. -/
def Time.Before (a b : Time) : Bool := decide (a < b)

structure Header where
  Retry : Int
  MessageGuid : String
  TimeStampUtc : Time
  deriving DecidableEq, Repr

structure Score where
  Away : Int
  Home : Int
  IsConfirmed : Bool
  deriving DecidableEq, Repr

structure Period where
  Type_ : String
  Number : Int
  deriving DecidableEq, Repr

structure GameTime where
  Clock : String
  IsRunning : Bool
  LastUpdatedUtc : Time
  deriving DecidableEq, Repr

structure AmericanFootballMatchState where
  Score : Score
  Period : Period
  GameTime : GameTime
  FixtureId : String
  deriving DecidableEq, Repr

structure Competitor where
  ID : Int
  Name : String
  HomeAway : String
  deriving DecidableEq, Repr

structure Fixture where
  ID : Int
  Competitors : List Competitor
  Status : String
  StartTimeUtc : Time
  deriving DecidableEq, Repr

/-- The envelope: a header and two nullable payload pointers. -/
structure Message where
  Header : Header
  AmericanFootballMatchState : Option AmericanFootballMatchState
  Fixture : Option Fixture
  deriving DecidableEq, Repr

/-! ## internal/consumer/handler.go -/

/-- A scalar handed to `HSet` as a hash field value. -/
inductive Value where
  | str (s : String)
  | int (n : Int)
  | bool (b : Bool)
  deriving DecidableEq, Repr

/-- The `map[string]interface{}` literal passed to `HSet`; its keys are distinct. -/
abbrev Fields := List (String × Value)

/-- The Redis keyspace of hashes: key, then field, to the stored value. -/
abbrev Store := String → String → Option Value

/-- The effect of an accepted `HSET key f1 v1 f2 v2 ...`: the named fields of
the hash at `key` are overwritten, every other field and key is kept. -/
def hsetApply (s : Store) (key : String) (fields : Fields) : Store :=
  fun k f =>
    if k = key then
      match fields.lookup f with
      | some v => some v
      | none => s k f
    else s k f

/-- The Redis client: `HSet` maps the store to an error (or `none`) and the
store afterwards. -/
structure RedisClient where
  HSet : Store → String → Fields → Option String × Store

/-- A client whose server accepts every write. -/
def acceptingClient : RedisClient where
  HSet := fun s key fields => (none, hsetApply s key fields)

def Home : String := "Home"

def Away : String := "Away"

/-- One iteration of the `for _, comp := range fixture.Competitors` loop of
`processFixture`, on the pair `(homeTeam, awayTeam)`. -/
def competitorStep (acc : String × String) (comp : Competitor) : String × String :=
  if comp.HomeAway = Home then (comp.Name, acc.2)
  else if comp.HomeAway = Away then (acc.1, comp.Name)
  else acc

/-- The loop of `processFixture`, started from `homeTeam = ""`, `awayTeam = ""`. -/
def findTeams (comps : List Competitor) : String × String :=
  comps.foldl competitorStep ("", "")

/-- The `scoreData` map of `processFixture`. -/
def fixtureFields (formatRFC3339 : Time → String) (fixture : Fixture) (timestamp : Time)
    (homeTeam awayTeam : String) : Fields :=
  [("away_team", .str awayTeam),
   ("home_team", .str homeTeam),
   ("fixture_status", .str fixture.Status),
   ("start_time", .str (formatRFC3339 fixture.StartTimeUtc)),
   ("timestamp", .str (formatRFC3339 timestamp))]

/-- `Handler.processFixture`: the error returned and the store afterwards. -/
def processFixture (formatRFC3339 : Time → String) (redisClient : RedisClient) (s : Store)
    (fixture : Fixture) (timestamp : Time) : Option String × Store :=
  let teams := findTeams fixture.Competitors
  let homeTeam := teams.1
  let awayTeam := teams.2
  if homeTeam = "" ∨ awayTeam = "" then
    (some ("fixture " ++ toString fixture.ID ++ " missing home or away team"), s)
  else
    let key := "fixture:" ++ toString fixture.ID
    let scoreData := fixtureFields formatRFC3339 fixture timestamp homeTeam awayTeam
    match redisClient.HSet s key scoreData with
    | (some err, s') => (some ("failed to store latest score: " ++ err), s')
    | (none, s') => (none, s')

/-- The `scoreData` map of `processMatchState`. -/
def matchStateFields (formatRFC3339 : Time → String) (state : AmericanFootballMatchState)
    (timestamp : Time) : Fields :=
  [("away", .int state.Score.Away),
   ("home", .int state.Score.Home),
   ("is_confirmed", .bool state.Score.IsConfirmed),
   ("period_num", .int state.Period.Number),
   ("period_type", .str state.Period.Type_),
   ("is_running", .bool state.GameTime.IsRunning),
   ("timestamp", .str (formatRFC3339 timestamp))]

/-- `Handler.processMatchState`: the error returned and the store afterwards. -/
def processMatchState (formatRFC3339 : Time → String) (redisClient : RedisClient) (s : Store)
    (state : AmericanFootballMatchState) (timestamp : Time) : Option String × Store :=
  let key := "fixture:" ++ state.FixtureId
  let scoreData := matchStateFields formatRFC3339 state timestamp
  match redisClient.HSet s key scoreData with
  | (some err, s') => (some ("failed to store latest score: " ++ err), s')
  | (none, s') => (none, s')

/-- `Handler.ProcessMessage`: the fixture pointer is tested first, then the
match-state pointer; with both nil the error is `unknown message type`. -/
def ProcessMessage (formatRFC3339 : Time → String) (redisClient : RedisClient) (s : Store)
    (msg : Message) : Option String × Store :=
  match msg.Fixture with
  | some fixture => processFixture formatRFC3339 redisClient s fixture msg.Header.TimeStampUtc
  | none =>
    match msg.AmericanFootballMatchState with
    | some state => processMatchState formatRFC3339 redisClient s state msg.Header.TimeStampUtc
    | none => (some "unknown message type", s)

/-! ## internal/producer/parser.go -/

structure ParsedMessage where
  LineNumber : Nat
  Message : Message
  OriginalTimestamp : Time
  deriving DecidableEq, Repr

/-- The double-quote character. -/
def dq : Char := Char.ofNat 34

/-- The sentinel first line, the fourteen characters of `extracted_data` inside
one pair of double quotes. -/
def sentinelLine : String := "\"extracted_data\""

/-- Go `strings.ReplaceAll(line, old, new)` at the constants of the call in
`ParseFile`, `old` two double quotes and `new` one: the non-overlapping
occurrences of `old` are replaced from left to right. -/
def replaceDoubledQuotes : List Char → List Char
  | [] => []
  | [c] => [c]
  | c :: d :: rest =>
    if c = dq ∧ d = dq then dq :: replaceDoubledQuotes rest
    else c :: replaceDoubledQuotes (d :: rest)

/-- The guarded slice `line = line[1 : len(line)-1]`: taken when the line has
at least two characters and begins and ends with a double quote. -/
def stripOuterQuotes (line : List Char) : List Char :=
  if 2 ≤ line.length ∧ line.head? = some dq ∧ line.getLast? = some dq then
    (line.drop 1).dropLast
  else line

/-- The unquoting step of `ParseFile` (parser.go lines 60 to 68). -/
def unquoteLine (line : String) : String :=
  String.mk (stripOuterQuotes (replaceDoubledQuotes line.data))

/-- The comparison closure handed to `sort.Slice`. -/
def lessByTimestamp (x y : ParsedMessage) : Bool :=
  x.OriginalTimestamp.Before y.OriginalTimestamp

/-- The `for scanner.Scan()` loop of `ParseFile`: `lineNum` is the number of
lines read so far and `messages` the slice appended to.  `decode` is
`json.Unmarshal` into a fresh `models.Message`, `none` when it returns an
error. -/
def scanLoop (decode : String → Option Message) :
    List String → Nat → List ParsedMessage → List ParsedMessage
  | [], _, messages => messages
  | line :: rest, lineNum, messages =>
    let lineNum := lineNum + 1
    if lineNum = 1 ∧ line = sentinelLine then scanLoop decode rest lineNum messages
    else if line.length = 0 then scanLoop decode rest lineNum messages
    else
      let line := unquoteLine line
      match decode line with
      | none => scanLoop decode rest lineNum messages
      | some msg =>
        if msg.Fixture = none ∧ msg.AmericanFootballMatchState = none then
          scanLoop decode rest lineNum messages
        else if msg.Header.MessageGuid = "" ∨ msg.Header.TimeStampUtc.IsZero = true then
          scanLoop decode rest lineNum messages
        else
          scanLoop decode rest lineNum
            (messages ++ [ParsedMessage.mk lineNum msg msg.Header.TimeStampUtc])

/-- What opening and scanning the file gives `ParseFile`: the error of
`os.Open`, the lines `scanner.Scan` yields, and `scanner.Err()` after the
last of them. -/
structure File where
  openErr : Option String
  lines : List String
  scanErr : Option String

/-- `ParseFile`.  `sortSlice less x` is the library call `sort.Slice(x, less)`
with the index closure read as a comparison of elements. -/
def ParseFile
    (sortSlice : (ParsedMessage → ParsedMessage → Bool) → List ParsedMessage → List ParsedMessage)
    (decode : String → Option Message) (file : File) : Except String (List ParsedMessage) :=
  match file.openErr with
  | some err => .error ("failed to open file: " ++ err)
  | none =>
    let messages := scanLoop decode file.lines 0 []
    match file.scanErr with
    | some err => .error ("error reading file: " ++ err)
    | none => .ok (sortSlice lessByTimestamp messages)

/-! ### The records the specification selects -/

/-- The record a line contributes according to the specification: none for the
sentinel first line, for an empty line, for a line that does not decode after
unquoting, and for an envelope with no payload variant, an empty guid or a
zero header timestamp; otherwise the envelope with its line number. -/
def qualifies (decode : String → Option Message) (lineNumber : Nat) (line : String) :
    Option ParsedMessage :=
  if (lineNumber = 1 ∧ line = sentinelLine) ∨ line = "" then none
  else
    match decode (unquoteLine line) with
    | none => none
    | some msg =>
      if (msg.Fixture.isSome ∨ msg.AmericanFootballMatchState.isSome) ∧
          msg.Header.MessageGuid ≠ "" ∧ msg.Header.TimeStampUtc ≠ 0 then
        some (ParsedMessage.mk lineNumber msg msg.Header.TimeStampUtc)
      else none

/-- The qualifying records of a file in file order, lines numbered from
`first`. -/
def qualifyingFrom (decode : String → Option Message) : Nat → List String → List ParsedMessage
  | _, [] => []
  | first, line :: rest =>
    match qualifies decode first line with
    | some m => m :: qualifyingFrom decode (first + 1) rest
    | none => qualifyingFrom decode (first + 1) rest

/-- The qualifying records of a file in file order, lines numbered from 1. -/
def qualifyingRecords (decode : String → Option Message) (lines : List String) :
    List ParsedMessage :=
  qualifyingFrom decode 1 lines

/-- The capture format's quoting of a record text: every double quote doubled,
the result wrapped in one pair of double quotes. -/
def quoteRecord (s : List Char) : List Char :=
  dq :: (s.flatMap (fun c => if c = dq then [dq, dq] else [c])) ++ [dq]

/-! ## Go standard library: `sort.Slice`

`ParseFile` takes the library call `sort.Slice` as a parameter; the theorems
about `ParseFile` instantiate it with `Slice` below: `sort.Slice(x, less)` of
Go 1.19 and later, which runs `pdqsort_func` (package `sort`, file
`zsortfunc.go`) on the index interface `lessSwap`.  The slice is a list,
`data.Less(i, j)` is `lessAt` and `data.Swap(i, j)` is `swapAt`.  Every `for`
loop is a function with a counter that bounds its iterations; the counters
passed are large enough for the loops to end by their own conditions, which the
correctness theorem `Slice_sorts` relies on. -/

section GoSort

variable {α : Type}

/-- The method `data.Swap(i, j)`. -/
def swapAt (data : List α) (i j : Nat) : List α :=
  match data[i]?, data[j]? with
  | some x, some y => (data.set i y).set j x
  | _, _ => data

/-- The method `data.Less(i, j)`. -/
def lessAt (less : α → α → Bool) (data : List α) (i j : Nat) : Bool :=
  match data[i]?, data[j]? with
  | some x, some y => less x y
  | _, _ => false

/-- The inner loop of `insertionSort_func`:
`for j := i; j > a && data.Less(j, j-1); j-- { data.Swap(j, j-1) }`. -/
def insertionInner (less : α → α → Bool) (a : Nat) : Nat → List α → List α
  | 0, data => data
  | j + 1, data =>
    if a < j + 1 ∧ lessAt less data (j + 1) j = true then
      insertionInner less a j (swapAt data (j + 1) j)
    else data

/-- The outer loop of `insertionSort_func`: `for i := a + 1; i < b; i++`. -/
def insertionOuter (less : α → α → Bool) (a b : Nat) : Nat → Nat → List α → List α
  | 0, _, data => data
  | fuel + 1, i, data =>
    if i < b then insertionOuter less a b fuel (i + 1) (insertionInner less a i data)
    else data

/-- `insertionSort_func(data, a, b)`. -/
def insertionSort_func (less : α → α → Bool) (data : List α) (a b : Nat) : List α :=
  insertionOuter less a b (b - a) (a + 1) data

/-- `siftDown_func(data, lo, hi, first)`, the loop variable `root` starting at
`lo`. -/
def siftDown_func (less : α → α → Bool) (hi first : Nat) : Nat → Nat → List α → List α
  | 0, _, data => data
  | fuel + 1, root, data =>
    let child := 2 * root + 1
    if hi ≤ child then data
    else
      let child :=
        if child + 1 < hi ∧ lessAt less data (first + child) (first + child + 1) = true then
          child + 1
        else child
      if lessAt less data (first + root) (first + child) = true then
        siftDown_func less hi first fuel child (swapAt data (first + root) (first + child))
      else data

/-- The first loop of `heapSort_func`, `for i := (hi - 1) / 2; i >= 0; i--`,
from the given `i` down to 0. -/
def heapBuild (less : α → α → Bool) (hi first : Nat) : Nat → List α → List α
  | 0, data => siftDown_func less hi first hi 0 data
  | i + 1, data => heapBuild less hi first i (siftDown_func less hi first hi (i + 1) data)

/-- The second loop of `heapSort_func`, `for i := hi - 1; i >= 0; i--`, from the
given `i` down to 0. -/
def heapPop (less : α → α → Bool) (first : Nat) : Nat → List α → List α
  | 0, data => siftDown_func less 0 first 0 0 (swapAt data first first)
  | i + 1, data =>
    heapPop less first i
      (siftDown_func less (i + 1) first (i + 1) 0 (swapAt data first (first + (i + 1))))

/-- `heapSort_func(data, a, b)`.  With `hi = 0` the first loop runs once on an
empty heap and the second not at all. -/
def heapSort_func (less : α → α → Bool) (data : List α) (a b : Nat) : List α :=
  let first := a
  let hi := b - a
  if hi = 0 then data
  else heapPop less first (hi - 1) (heapBuild less hi first ((hi - 1) / 2) data)

/-- The loop `for i <= j && data.Less(i, a) { i++ }`; the result is `i`. -/
def scanUp (less : α → α → Bool) (data : List α) (a j : Nat) : Nat → Nat → Nat
  | 0, i => i
  | fuel + 1, i =>
    if i ≤ j ∧ lessAt less data i a = true then scanUp less data a j fuel (i + 1) else i

/-- The loop `for i <= j && !data.Less(j, a) { j-- }`; the result is `j`. -/
def scanDown (less : α → α → Bool) (data : List α) (a i : Nat) : Nat → Nat → Nat
  | 0, j => j
  | fuel + 1, j =>
    if i ≤ j ∧ lessAt less data j a = false then scanDown less data a i fuel (j - 1) else j

/-- The closing `for` loop of `partition_func`; the result is the slice and
`j`. -/
def partitionLoop (less : α → α → Bool) (a : Nat) : Nat → Nat → Nat → List α → List α × Nat
  | 0, _, j, data => (data, j)
  | fuel + 1, i, j, data =>
    let i := scanUp less data a j (j + 1) i
    let j := scanDown less data a i (j + 1) j
    if j < i then (data, j)
    else partitionLoop less a fuel (i + 1) (j - 1) (swapAt data i j)

/-- `partition_func(data, a, b, pivot)`: the slice, `newpivot` and
`alreadyPartitioned`. -/
def partition_func (less : α → α → Bool) (data : List α) (a b pivot : Nat) :
    List α × Nat × Bool :=
  let data := swapAt data a pivot
  let i := a + 1
  let j := b - 1
  let i := scanUp less data a j (j + 1) i
  let j := scanDown less data a i (j + 1) j
  if j < i then (swapAt data j a, j, true)
  else
    let data := swapAt data i j
    let r := partitionLoop less a (b - a) (i + 1) (j - 1) data
    (swapAt r.1 r.2 a, r.2, false)

/-- The loop `for i <= j && !data.Less(a, i) { i++ }`; the result is `i`. -/
def scanUpEqual (less : α → α → Bool) (data : List α) (a j : Nat) : Nat → Nat → Nat
  | 0, i => i
  | fuel + 1, i =>
    if i ≤ j ∧ lessAt less data a i = false then scanUpEqual less data a j fuel (i + 1) else i

/-- The loop `for i <= j && data.Less(a, j) { j-- }`; the result is `j`. -/
def scanDownEqual (less : α → α → Bool) (data : List α) (a i : Nat) : Nat → Nat → Nat
  | 0, j => j
  | fuel + 1, j =>
    if i ≤ j ∧ lessAt less data a j = true then scanDownEqual less data a i fuel (j - 1) else j

/-- The `for` loop of `partitionEqual_func`; the result is the slice and `i`. -/
def partitionEqualLoop (less : α → α → Bool) (a : Nat) :
    Nat → Nat → Nat → List α → List α × Nat
  | 0, i, _, data => (data, i)
  | fuel + 1, i, j, data =>
    let i := scanUpEqual less data a j (j + 1) i
    let j := scanDownEqual less data a i (j + 1) j
    if j < i then (data, i)
    else partitionEqualLoop less a fuel (i + 1) (j - 1) (swapAt data i j)

/-- `partitionEqual_func(data, a, b, pivot)`: the slice and `newpivot`. -/
def partitionEqual_func (less : α → α → Bool) (data : List α) (a b pivot : Nat) :
    List α × Nat :=
  let data := swapAt data a pivot
  partitionEqualLoop less a (b - a + 1) (a + 1) (b - 1) data

/-- The loop `for i < b && !data.Less(i, i-1) { i++ }` of
`partialInsertionSort_func`; the result is `i`. -/
def scanSorted (less : α → α → Bool) (data : List α) (b : Nat) : Nat → Nat → Nat
  | 0, i => i
  | fuel + 1, i =>
    if i < b ∧ lessAt less data i (i - 1) = false then scanSorted less data b fuel (i + 1)
    else i

/-- The loop `for j := i - 1; j >= 1; j--` of `partialInsertionSort_func`, which
breaks at the first `j` with `!data.Less(j, j-1)`. -/
def shiftLeft (less : α → α → Bool) : Nat → List α → List α
  | 0, data => data
  | j + 1, data =>
    if lessAt less data (j + 1) j = true then shiftLeft less j (swapAt data (j + 1) j)
    else data

/-- The loop `for j := i + 1; j < b; j++` of `partialInsertionSort_func`, which
breaks at the first `j` with `!data.Less(j, j-1)`. -/
def shiftRight (less : α → α → Bool) (b : Nat) : Nat → Nat → List α → List α
  | 0, _, data => data
  | fuel + 1, j, data =>
    if j < b then
      if lessAt less data j (j - 1) = true then
        shiftRight less b fuel (j + 1) (swapAt data j (j - 1))
      else data
    else data

/-- The loop `for j := 0; j < maxSteps; j++` of `partialInsertionSort_func`,
with `steps` iterations left; the result is the slice and the returned
boolean. -/
def partialInsertionLoop (less : α → α → Bool) (a b : Nat) : Nat → Nat → List α → List α × Bool
  | 0, _, data => (data, false)
  | steps + 1, i, data =>
    let i := scanSorted less data b b i
    if i = b then (data, true)
    else if b - a < 50 then (data, false)
    else
      let data := swapAt data i (i - 1)
      let data := if 2 ≤ i - a then shiftLeft less (i - 1) data else data
      let data := if 2 ≤ b - i then shiftRight less b b (i + 1) data else data
      partialInsertionLoop less a b steps i data

/-- `partialInsertionSort_func(data, a, b)`, with `maxSteps = 5` and
`shortestShifting = 50`. -/
def partialInsertionSort_func (less : α → α → Bool) (data : List α) (a b : Nat) :
    List α × Bool :=
  partialInsertionLoop less a b 5 (a + 1) data

/-- Go `bits.Len`: the number of bits needed to write `n`. -/
def bitsLen : Nat → Nat → Nat
  | 0, _ => 0
  | fuel + 1, n => if n = 0 then 0 else 1 + bitsLen fuel (n / 2)

/-- The method `xorshift.Next` on a `uint64` state. -/
def xorshiftNext (r : Nat) : Nat :=
  let r := r ^^^ ((r <<< 13) % 2 ^ 64)
  let r := r ^^^ (r >>> 7)
  r ^^^ ((r <<< 17) % 2 ^ 64)

/-- The loop `for i := 0; i < 3; i++` of `breakPatterns_func`, with `n`
iterations left. -/
def breakPatternsLoop (a length modulus idx : Nat) : Nat → Nat → Nat → List α → List α
  | 0, _, _, data => data
  | n + 1, i, random, data =>
    let random := xorshiftNext random
    let other := random &&& (modulus - 1)
    let other := if length ≤ other then other - length else other
    breakPatternsLoop a length modulus idx n (i + 1) random (swapAt data (idx - 1 + i) (a + other))

/-- `breakPatterns_func(data, a, b)`. -/
def breakPatterns_func (data : List α) (a b : Nat) : List α :=
  let length := b - a
  if 8 ≤ length then
    let modulus := 2 ^ bitsLen length length
    let idx := a + (length / 4) * 2 - 1
    breakPatternsLoop a length modulus idx 3 0 length data
  else data

inductive sortedHint where
  | unknownHint
  | increasingHint
  | decreasingHint
  deriving DecidableEq, Repr

/-- `order2_func(data, a, b, swaps)`: the two indices in order and the updated
`*swaps`. -/
def order2_func (less : α → α → Bool) (data : List α) (a b swaps : Nat) : Nat × Nat × Nat :=
  if lessAt less data b a = true then (b, a, swaps + 1) else (a, b, swaps)

/-- `median_func(data, a, b, c, swaps)`: the index of the median and the updated
`*swaps`. -/
def median_func (less : α → α → Bool) (data : List α) (a b c swaps : Nat) : Nat × Nat :=
  let r1 := order2_func less data a b swaps
  let r2 := order2_func less data r1.2.1 c r1.2.2
  let r3 := order2_func less data r1.1 r2.1 r2.2.2
  (r3.2.1, r3.2.2)

/-- `medianAdjacent_func(data, a, swaps)`. -/
def medianAdjacent_func (less : α → α → Bool) (data : List α) (a swaps : Nat) : Nat × Nat :=
  median_func less data (a - 1) a (a + 1) swaps

/-- `choosePivot_func(data, a, b)`, with `shortestNinther = 50` and
`maxSwaps = 4 * 3`. -/
def choosePivot_func (less : α → α → Bool) (data : List α) (a b : Nat) : Nat × sortedHint :=
  let l := b - a
  let i := a + l / 4 * 1
  let j := a + l / 4 * 2
  let k := a + l / 4 * 3
  let r :=
    if 8 ≤ l then
      if 50 ≤ l then
        let ri := medianAdjacent_func less data i 0
        let rj := medianAdjacent_func less data j ri.2
        let rk := medianAdjacent_func less data k rj.2
        median_func less data ri.1 rj.1 rk.1 rk.2
      else median_func less data i j k 0
    else (j, 0)
  if r.2 = 0 then (r.1, .increasingHint)
  else if r.2 = 12 then (r.1, .decreasingHint)
  else (r.1, .unknownHint)

/-- The loop of `reverseRange_func`: `for i < j { data.Swap(i, j); i++; j-- }`. -/
def reverseLoop : Nat → Nat → Nat → List α → List α
  | 0, _, _, data => data
  | fuel + 1, i, j, data =>
    if i < j then reverseLoop fuel (i + 1) (j - 1) (swapAt data i j) else data

/-- `reverseRange_func(data, a, b)`. -/
def reverseRange_func (data : List α) (a b : Nat) : List α :=
  reverseLoop (b - a) a (b - 1) data

/-- `pdqsort_func(data, a, b, limit)`, with `maxInsertion = 12`.  The first
argument bounds the depth of the loop and of the recursive call together; the
interval `[a, b)` shrinks with each. -/
def pdqsort_func (less : α → α → Bool) :
    Nat → List α → Nat → Nat → Nat → Bool → Bool → List α
  | 0, data, _, _, _, _, _ => data
  | fuel + 1, data, a, b, limit, wasBalanced, wasPartitioned =>
    let length := b - a
    if length ≤ 12 then insertionSort_func less data a b
    else if limit = 0 then heapSort_func less data a b
    else
      let data := if wasBalanced then data else breakPatterns_func data a b
      let limit := if wasBalanced then limit else limit - 1
      let ph := choosePivot_func less data a b
      let data := if ph.2 = .decreasingHint then reverseRange_func data a b else data
      let pivot := if ph.2 = .decreasingHint then (b - 1) - (ph.1 - a) else ph.1
      let hint := if ph.2 = .decreasingHint then sortedHint.increasingHint else ph.2
      let tryPartial := wasBalanced && wasPartitioned && decide (hint = .increasingHint)
      let pr := if tryPartial then partialInsertionSort_func less data a b else (data, false)
      if pr.2 then pr.1
      else
        let data := pr.1
        if 0 < a ∧ lessAt less data (a - 1) pivot = false then
          let r := partitionEqual_func less data a b pivot
          pdqsort_func less fuel r.1 r.2 b limit wasBalanced wasPartitioned
        else
          let r := partition_func less data a b pivot
          let data := r.1
          let mid := r.2.1
          let wasPartitioned := r.2.2
          let leftLen := mid - a
          let rightLen := b - mid
          let balanceThreshold := length / 8
          if leftLen < rightLen then
            let wasBalanced := decide (balanceThreshold ≤ leftLen)
            let data := pdqsort_func less fuel data a mid limit true true
            pdqsort_func less fuel data (mid + 1) b limit wasBalanced wasPartitioned
          else
            let wasBalanced := decide (balanceThreshold ≤ rightLen)
            let data := pdqsort_func less fuel data (mid + 1) b limit true true
            pdqsort_func less fuel data a mid limit wasBalanced wasPartitioned

/-- `sort.Slice(x, less)`: `pdqsort_func` on the whole slice with
`limit = bits.Len(uint(length))`. -/
def Slice (less : α → α → Bool) (x : List α) : List α :=
  let length := x.length
  let limit := bitsLen length length
  pdqsort_func less (length + 1) x 0 length limit true true

end GoSort

/-! ### Vocabulary of the correctness of `Slice` -/

section SortVocabulary

variable {α : Type}

/-- The key of the element at an index, 0 outside the slice. -/
def keyAt (k : α → Int) (data : List α) (i : Nat) : Int :=
  match data[i]? with
  | some x => k x
  | none => 0

/-- The comparison `less` orders by the key `k`. -/
def OrdersBy (less : α → α → Bool) (k : α → Int) : Prop :=
  ∀ x y, less x y = decide (k x < k y)

/-- The slice `d'` arises from `d` by rearranging the elements at the indices of
`[a, b)`. -/
structure Reach (a b : Nat) (d d' : List α) : Prop where
  perm : d'.Perm d
  out : ∀ m, m < a ∨ b ≤ m → d'[m]? = d[m]?
  inn : ∀ m, a ≤ m → m < b → ∃ m', a ≤ m' ∧ m' < b ∧ d'[m]? = d[m']?

/-- The keys at the indices of `[a, b)` do not decrease. -/
def SortedRange (k : α → Int) (data : List α) (a b : Nat) : Prop :=
  ∀ i j, a ≤ i → i ≤ j → j < b → keyAt k data i ≤ keyAt k data j


/-- The invariant of the inner loop of `insertionSort_func` at index `j`: the
keys of `[a, i]` other than the one at `j` do not decrease, and the key at `j`
is at most every key after it. -/
def InsertInv (k : α → Int) (data : List α) (a i j : Nat) : Prop :=
  (∀ p q, a ≤ p → p ≤ q → q ≤ i → p ≠ j → q ≠ j → keyAt k data p ≤ keyAt k data q) ∧
  (∀ q, j < q → q ≤ i → keyAt k data j ≤ keyAt k data q)

/-- The element just before `[a, b)`, when there is one, has a key not above
any key of `[a, b)`. -/
def LowerBound (k : α → Int) (data : List α) (a b : Nat) : Prop :=
  a = 0 ∨ ∀ m, a ≤ m → m < b → keyAt k data (a - 1) ≤ keyAt k data m

/-- In the heap of `hi` elements stored from index `first`, every node from
`lo` on has a key not below its children's. -/
def HeapFrom (k : α → Int) (data : List α) (first lo hi : Nat) : Prop :=
  ∀ c, 1 ≤ c → c < hi → lo ≤ (c - 1) / 2 →
    keyAt k data (first + c) ≤ keyAt k data (first + (c - 1) / 2)

/-- The heap property from `lo` on, except possibly at the node `r`. -/
def HeapExcept (k : α → Int) (data : List α) (first lo hi r : Nat) : Prop :=
  ∀ c, 1 ≤ c → c < hi → lo ≤ (c - 1) / 2 → (c - 1) / 2 ≠ r →
    keyAt k data (first + c) ≤ keyAt k data (first + (c - 1) / 2)

/-- The parent of `r`, when it is a node from `lo` on, has a key not below the
keys of the children of `r`. -/
def GrandOk (k : α → Int) (data : List α) (first lo hi r : Nat) : Prop :=
  1 ≤ r → lo ≤ (r - 1) / 2 → ∀ c, 1 ≤ c → c < hi → (c - 1) / 2 = r →
    keyAt k data (first + c) ≤ keyAt k data (first + (r - 1) / 2)

end SortVocabulary

/-! ## internal/producer/sender.go

`ReplayMessages` runs on one goroutine.  What it cannot decide itself is
supplied turn by turn: which ready case each `select` proceeds with, how long
it blocked, what the HTTP calls returned and how long they took.  Durations are
nanoseconds, as in `time.Duration`. -/

/-- An `error` returned by the HTTP client, with whether
`errors.Is(err, context.Canceled)` holds of it. -/
structure SendError where
  text : String
  canceled : Bool
  deriving DecidableEq, Repr

/-- A Go channel of `ParsedMessage`: the buffered values and whether it has
been closed. -/
structure Chan where
  buf : List ParsedMessage
  closed : Bool
  deriving DecidableEq, Repr

/-- The zero value of `ParsedMessage`, which a receive from a closed and
drained channel yields. -/
def zeroParsedMessage : ParsedMessage :=
  ParsedMessage.mk 0 (Message.mk (Header.mk 0 "" 0) none none) 0

/-- The receive `msg := <-messages`: `none` when the operation cannot proceed
(an open channel with nothing buffered). -/
def receive (ch : Chan) : Option (ParsedMessage × Chan) :=
  match ch.buf with
  | m :: rest => some (m, Chan.mk rest ch.closed)
  | [] => if ch.closed then some (zeroParsedMessage, ch) else none

/-- The case a `select` of the loop proceeds with. -/
inductive SelectCase where
  | done
  | tick
  | recv
  deriving DecidableEq, Repr

/-- What the environment contributes to one iteration of the loop. -/
structure Turn where
  /-- The case the outer `select` proceeds with. -/
  fired : SelectCase
  /-- How long the outer `select` blocked before it. -/
  blocked : Nat
  /-- The result of `SendHeartbeat` on a tick. -/
  heartbeatErr : Option SendError
  /-- How long that `SendHeartbeat` took. -/
  heartbeatTook : Nat
  /-- Whether, in the pacing `select`, `ctx.Done()` is ready before the timer. -/
  waitCancelled : Bool
  /-- How much later than asked the `time.After` timer fires. -/
  overslept : Nat
  /-- The result of `SendMessage`. -/
  sendErr : Option SendError
  /-- How long that `SendMessage` took. -/
  sendTook : Nat
  deriving DecidableEq, Repr

/-- One call of `SendMessage`: the instant of the call (the time written into
the header and put on the wire), the record, and the result. -/
structure Transmission where
  instant : Time
  record : ParsedMessage
  err : Option SendError
  deriving DecidableEq, Repr

/-- The variables of a run of `ReplayMessages`, the wall clock, and the calls of
`SendMessage` and ticks of the heartbeat made so far. -/
structure ReplayState where
  clock : Time
  lastSent : Time
  messages : Chan
  sent : List Transmission
  heartbeats : List (Time × Option SendError)
  deriving DecidableEq, Repr

inductive Outcome where
  /-- The run is inside its `for` loop. -/
  | running (s : ReplayState)
  /-- The run has returned the given error (`none` for `nil`). -/
  | returned (err : Option SendError) (s : ReplayState)
  deriving DecidableEq, Repr

/-- The call of `SendMessage` in the `case msg := <-messages` branch and the
`if err != nil ... else ... lastSent = now` after it. -/
def sendAndRecord (s : ReplayState) (t : Turn) (msg : ParsedMessage) (now : Time) : ReplayState :=
  { s with
    clock := s.clock + t.sendTook
    sent := s.sent ++ [Transmission.mk s.clock msg t.sendErr]
    lastSent := match t.sendErr with
      | some _ => s.lastSent
      | none => now }

/-- One iteration of the `for { select { ... } }` loop of `ReplayMessages`. -/
def loopBody (speed : Int) (s : ReplayState) (t : Turn) : Outcome :=
  let s := { s with clock := s.clock + t.blocked }
  match t.fired with
  | .done => .returned none s
  | .tick =>
    .running { s with
      clock := s.clock + t.heartbeatTook
      heartbeats := s.heartbeats ++ [(s.clock, t.heartbeatErr)] }
  | .recv =>
    match receive s.messages with
    | none => .running s
    | some (msg, ch) =>
      let s := { s with messages := ch }
      let now := s.clock
      if s.lastSent.IsZero = false ∧ now - s.lastSent ≤ speed then
        if t.waitCancelled then .returned none s
        else
          let s := { s with clock := now + (speed - (now - s.lastSent)) + t.overslept }
          .running (sendAndRecord s t msg now)
      else .running (sendAndRecord s t msg now)

/-- The `for` loop of `ReplayMessages` over the turns supplied; with none left
the run is still inside the loop. -/
def replayLoop (speed : Int) : List Turn → ReplayState → Outcome
  | [], s => .running s
  | t :: ts, s =>
    match loopBody speed s t with
    | .running s' => replayLoop speed ts s'
    | .returned err s' => .returned err s'

/-- `Sender.ReplayMessages(ctx, messages, speed)`, started at wall-clock time
`start` with the initial `SendHeartbeat` returning `heartbeatErr`. -/
def ReplayMessages (heartbeatErr : Option SendError) (start : Time) (messages : Chan)
    (speed : Int) (turns : List Turn) : Outcome :=
  let s : ReplayState := ReplayState.mk start 0 messages [] []
  match heartbeatErr with
  | some err => .returned (some err) s
  | none => replayLoop speed turns s

/-! ## cmd/producer/main.go -/

inductive RunResult where
  /-- The function returned this exit code. -/
  | exit (code : Nat)
  /-- The goroutine panicked with this runtime error. -/
  | panicked (text : String)
  /-- The function is inside `ReplayMessages`. -/
  | replaying (s : ReplayState)
  deriving DecidableEq, Repr

/-- The function `run` of the producer from the call of `ParseFile` on.  The
channel handed to `ReplayMessages` has capacity `len(messages)`, is filled in
order by a goroutine that never blocks, and is never closed. -/
def run
    (sortSlice : (ParsedMessage → ParsedMessage → Bool) → List ParsedMessage → List ParsedMessage)
    (decode : String → Option Message) (file : File)
    (heartbeatErr : Option SendError) (start : Time) (speed : Int) (turns : List Turn) :
    RunResult :=
  match ParseFile sortSlice decode file with
  | .error _ => .exit 1
  | .ok messages =>
    match messages[0]? with
    | none => .panicked ("index out of range [0] with length " ++ toString messages.length)
    | some _firstMessage =>
      match messages[messages.length - 1]? with
      | none => .panicked ("index out of range [" ++ toString (messages.length - 1) ++
          "] with length " ++ toString messages.length)
      | some _lastMessage =>
        let messagesCh := Chan.mk messages false
        match ReplayMessages heartbeatErr start messagesCh speed turns with
        | .returned (some err) _ => if err.canceled then .exit 0 else .exit 1
        | .returned none _ => .exit 0
        | .running s => .replaying s

/-! ## Vocabulary of the statements -/

/-- The opening brace. -/
def lbrace : Char := Char.ofNat 123

/-- The closing brace. -/
def rbrace : Char := Char.ofNat 125

/-- The line numbers of the records `ParseFile` returns, in the order
returned. -/
def lineNumbers (r : Except String (List ParsedMessage)) : Option (List Nat) :=
  match r with
  | .ok out => some (out.map (fun m => m.LineNumber))
  | .error _ => none

/-- The timestamps of the records `ParseFile` returns, in the order returned. -/
def timestamps (r : Except String (List ParsedMessage)) : Option (List Time) :=
  match r with
  | .ok out => some (out.map (fun m => m.OriginalTimestamp))
  | .error _ => none

/-- No turn observes a cancellation: the outer `select` never proceeds with
`ctx.Done()` and the pacing `select` never does either. -/
def neverCancelled (turns : List Turn) : Prop :=
  ∀ t ∈ turns, t.fired ≠ SelectCase.done ∧ t.waitCancelled = false

/-- The number of turns whose outer `select` proceeds with the receive. -/
def recvCount (turns : List Turn) : Nat :=
  turns.countP (fun t => decide (t.fired = SelectCase.recv))

/-- The records of the calls of `SendMessage` made so far, in order. -/
def sentRecords (s : ReplayState) : List ParsedMessage :=
  s.sent.map (fun x => x.record)

/-- The variables of the run at the outcome. -/
def Outcome.state (o : Outcome) : ReplayState :=
  match o with
  | .running s => s
  | .returned _ s => s

/-- Whether the run has returned. -/
def Outcome.hasReturned (o : Outcome) : Bool :=
  match o with
  | .running _ => false
  | .returned _ _ => true

/-- The instants of the calls of `SendMessage` that succeeded, in order. -/
def successfulSendInstants (o : Outcome) : List Time :=
  (o.state.sent.filter (fun x => x.err = none)).map (fun x => x.instant)

/-! ## Concrete inputs -/

/-- A stand-in for `time.Format(time.RFC3339)` at concrete inputs: the decimal
count of nanoseconds. -/
def stubFormat : Time → String := fun t => toString t

/-- The store with no key. -/
def emptyStore : Store := fun _ _ => none

/-- The fixture envelope of the specification's example: Rams at home, Chargers
away. -/
def ramsChargers : Message :=
  Message.mk (Header.mk 0 "guid-1" 1700000000) none
    (some (Fixture.mk 7 [Competitor.mk 1 "Rams" "Home", Competitor.mk 2 "Chargers" "Away"]
      "Scheduled" 1800000000))

/-- A fixture envelope whose Home competitor has the empty name. -/
def unnamedHome : Message :=
  Message.mk (Header.mk 0 "guid-2" 1700000000) none
    (some (Fixture.mk 7 [Competitor.mk 1 "" "Home", Competitor.mk 2 "Chargers" "Away"]
      "Scheduled" 1800000000))

/-- A fixture envelope whose only competitor has role Away. -/
def awayOnly : Message :=
  Message.mk (Header.mk 0 "guid-3" 1700000000) none
    (some (Fixture.mk 7 [Competitor.mk 2 "Chargers" "Away"] "Scheduled" 1800000000))

/-- A match-state envelope for entity 77 with the given header timestamp and
scores. -/
def scoreUpdate (ts : Time) (home away : Int) : Message :=
  Message.mk (Header.mk 0 "guid-4" ts)
    (some (AmericanFootballMatchState.mk (Score.mk away home true) (Period.mk "Q2" 2)
      (GameTime.mk "07:31" true ts) "77"))
    none

/-- An envelope with a header and no payload. -/
def headerOnly : Message := Message.mk (Header.mk 0 "guid-5" 1700000000) none none

/-- A stand-in for `json.Unmarshal` at concrete inputs: it decodes the listed
texts to the listed envelopes and fails on every other text. -/
def tableDecode (table : List (String × Message)) : String → Option Message :=
  fun text => table.lookup text

/-- The JSON text of a match-state envelope with the given guid and header
timestamp, every other field left out. -/
def matchStateJson (guid stamp : String) : String :=
  "\x7b\"Header\":\x7b\"MessageGuid\":\"" ++ guid ++ "\",\"TimeStampUtc\":\"" ++ stamp ++
    "\"\x7d,\"AmericanFootballMatchState\":\x7b\"FixtureId\":\"77\"\x7d\x7d"

/-- The envelope `json.Unmarshal` decodes `matchStateJson guid stamp` to, `ts`
being the instant `stamp` writes. -/
def matchStateEnvelope (guid : String) (ts : Time) : Message :=
  Message.mk (Header.mk 0 guid ts)
    (some (AmericanFootballMatchState.mk (Score.mk 0 0 false) (Period.mk "" 0)
      (GameTime.mk "" false 0) "77"))
    none

/-- The line of a capture file holding the given text. -/
def captureLine (text : String) : String := String.mk (quoteRecord text.data)

/-- The instant 2024-09-08T20:25:01Z. -/
def kickoff : Time := 63861423901000000000

/-- The JSON text of an envelope with a header and no payload. -/
def headerOnlyJson : String :=
  "\x7b\"Header\":\x7b\"MessageGuid\":\"g03\",\"TimeStampUtc\":\"2024-09-08T20:25:01Z\"\x7d\x7d"

/-- The decoder of the sample file: two match-state texts, and the text of an
envelope that has a header and no payload. -/
def sampleDecode : String → Option Message :=
  tableDecode
    [(matchStateJson "g01" "2024-09-08T20:25:02Z", matchStateEnvelope "g01" (kickoff + 1000000000)),
     (matchStateJson "g02" "2024-09-08T20:25:01Z", matchStateEnvelope "g02" kickoff),
     (headerOnlyJson, Message.mk (Header.mk 0 "g03" kickoff) none none)]

/-- A capture file of six lines: the sentinel, a record stamped 20:25:02, an
empty line, a record stamped 20:25:01, a line that is not JSON, and an envelope
without payload. -/
def sampleFile : File :=
  File.mk none
    [sentinelLine,
     captureLine (matchStateJson "g01" "2024-09-08T20:25:02Z"),
     "",
     captureLine (matchStateJson "g02" "2024-09-08T20:25:01Z"),
     "not json",
     captureLine headerOnlyJson]
    none

/-- Thirteen records: the first stamped 20:25:02, the other twelve 20:25:01. -/
def tiedRecords : List (String × String × Time) :=
  [("g01", "2024-09-08T20:25:02Z", kickoff + 1000000000),
   ("g02", "2024-09-08T20:25:01Z", kickoff), ("g03", "2024-09-08T20:25:01Z", kickoff),
   ("g04", "2024-09-08T20:25:01Z", kickoff), ("g05", "2024-09-08T20:25:01Z", kickoff),
   ("g06", "2024-09-08T20:25:01Z", kickoff), ("g07", "2024-09-08T20:25:01Z", kickoff),
   ("g08", "2024-09-08T20:25:01Z", kickoff), ("g09", "2024-09-08T20:25:01Z", kickoff),
   ("g10", "2024-09-08T20:25:01Z", kickoff), ("g11", "2024-09-08T20:25:01Z", kickoff),
   ("g12", "2024-09-08T20:25:01Z", kickoff), ("g13", "2024-09-08T20:25:01Z", kickoff)]

/-- The capture file of the thirteen records, one a line, no sentinel. -/
def tiedFile : File :=
  File.mk none (tiedRecords.map (fun r => captureLine (matchStateJson r.1 r.2.1))) none

/-- The decoder of the thirteen records. -/
def tiedDecode : String → Option Message :=
  tableDecode (tiedRecords.map (fun r => (matchStateJson r.1 r.2.1, matchStateEnvelope r.1 r.2.2)))

/-- A parsed match-state record with the given line number and timestamp. -/
def sampleRecord (line : Nat) (ts : Time) : ParsedMessage :=
  ParsedMessage.mk line (matchStateEnvelope "guid" ts) ts

/-- A turn in which the next record is received at once and `SendMessage`
succeeds after two milliseconds. -/
def promptDelivery : Turn :=
  { fired := .recv, blocked := 0, heartbeatErr := none, heartbeatTook := 0,
    waitCancelled := false, overslept := 0, sendErr := none, sendTook := 2000000 }

/-- A turn in which the heartbeat ticker fires after a minute and the heartbeat
succeeds. -/
def quietMinute : Turn :=
  { fired := .tick, blocked := 60000000000, heartbeatErr := none, heartbeatTook := 1000000,
    waitCancelled := false, overslept := 0, sendErr := none, sendTook := 0 }

/-- A turn in which the next record is received at once and the pacing `select`
finds `ctx.Done()` ready before the timer. -/
def cancelledWait : Turn :=
  { fired := .recv, blocked := 0, heartbeatErr := none, heartbeatTook := 0,
    waitCancelled := true, overslept := 0, sendErr := none, sendTook := 2000000 }

/-- A turn whose outer `select` proceeds with `ctx.Done()` after five
milliseconds. -/
def cancelledSelect : Turn :=
  { fired := .done, blocked := 5000000, heartbeatErr := none, heartbeatTook := 0,
    waitCancelled := false, overslept := 0, sendErr := none, sendTook := 0 }

/-- A channel that is not closed and holds two records. -/
def twoQueued : Chan :=
  Chan.mk [sampleRecord 1 kickoff, sampleRecord 2 kickoff] false

/-! # Theorems -/

/-! ## The reducer (handler.go) -/

theorem home_ne_away : Home ≠ Away := by decide

/-- The loop of `processFixture` leaves in `homeTeam` the name of the last
competitor with role Home and in `awayTeam` that of the last with role Away,
the empty string when there is none. -/
theorem findTeams_eq (comps : List Competitor) :
    findTeams comps =
      ((((comps.filter (fun c => c.HomeAway = Home)).map (fun c => c.Name)).getLast?).getD "",
       (((comps.filter (fun c => c.HomeAway = Away)).map (fun c => c.Name)).getLast?).getD "") := by
  unfold findTeams
  induction comps using List.reverseRecOn with
  | nil => rfl
  | append_singleton l c ih =>
    rw [List.foldl_append, ih]
    simp only [List.foldl_cons, List.foldl_nil, competitorStep, List.filter_append,
      List.map_append]
    by_cases hH : c.HomeAway = Home
    · have hA : c.HomeAway ≠ Away := fun h => home_ne_away (hH.symm.trans h)
      simp [hH, hA, home_ne_away, List.filter_cons, List.getLast?_append]
    · by_cases hA : c.HomeAway = Away
      · simp [hH, hA, List.filter_cons, List.getLast?_append, Ne.symm home_ne_away]
      · simp [hH, hA, List.filter_cons]

theorem filter_eq_nil_of_no_role (comps : List Competitor) (role : String)
    (h : ∀ c ∈ comps, c.HomeAway ≠ role) :
    comps.filter (fun c => c.HomeAway = role) = [] := by
  rw [List.filter_eq_nil_iff]
  intro c hc
  simpa using h c hc

/-- C5 (as amended).  A FixtureSnapshot envelope with exactly one competitor of
role Home and exactly one of role Away, both with a non-empty name, whose write
the store accepts, is processed without error, and the record keyed by the
fixture's numeric id then holds the Home competitor's name as `home_team` and
the Away competitor's name as `away_team`. -/
theorem ProcessMessage_fixture_stores_team_names
    (formatRFC3339 : Time → String) (redisClient : RedisClient) (s : Store)
    (msg : Message) (fixture : Fixture) (home away : Competitor)
    (hfix : msg.Fixture = some fixture)
    (hhome : fixture.Competitors.filter (fun c => c.HomeAway = Home) = [home])
    (haway : fixture.Competitors.filter (fun c => c.HomeAway = Away) = [away])
    (hh : home.Name ≠ "") (ha : away.Name ≠ "")
    (haccept : redisClient.HSet s ("fixture:" ++ toString fixture.ID)
        (fixtureFields formatRFC3339 fixture msg.Header.TimeStampUtc home.Name away.Name) =
      (none, hsetApply s ("fixture:" ++ toString fixture.ID)
        (fixtureFields formatRFC3339 fixture msg.Header.TimeStampUtc home.Name away.Name))) :
    (ProcessMessage formatRFC3339 redisClient s msg).1 = none ∧
    (ProcessMessage formatRFC3339 redisClient s msg).2
        ("fixture:" ++ toString fixture.ID) "home_team" = some (.str home.Name) ∧
    (ProcessMessage formatRFC3339 redisClient s msg).2
        ("fixture:" ++ toString fixture.ID) "away_team" = some (.str away.Name) := by
  have hteams : findTeams fixture.Competitors = (home.Name, away.Name) := by
    rw [findTeams_eq, hhome, haway]; rfl
  simp only [ProcessMessage, hfix, processFixture, hteams, hh, ha, or_self, if_false, haccept]
  simp [hsetApply, fixtureFields, List.lookup]

/-- C6.  A FixtureSnapshot envelope in which no competitor has role Home, or
none has role Away, makes `ProcessMessage` return the validation error
`fixture <id> missing home or away team`, and the store afterwards is the store
before, whatever the Redis client would have answered. -/
theorem ProcessMessage_fixture_missing_side
    (formatRFC3339 : Time → String) (redisClient : RedisClient) (s : Store)
    (msg : Message) (fixture : Fixture)
    (hfix : msg.Fixture = some fixture)
    (hmiss : (∀ c ∈ fixture.Competitors, c.HomeAway ≠ Home) ∨
      (∀ c ∈ fixture.Competitors, c.HomeAway ≠ Away)) :
    ProcessMessage formatRFC3339 redisClient s msg =
      (some ("fixture " ++ toString fixture.ID ++ " missing home or away team"), s) := by
  have hempty : (findTeams fixture.Competitors).1 = "" ∨ (findTeams fixture.Competitors).2 = "" := by
    rw [findTeams_eq]
    rcases hmiss with h | h
    · left; rw [filter_eq_nil_of_no_role _ _ h]; rfl
    · right; rw [filter_eq_nil_of_no_role _ _ h]; rfl
  simp only [ProcessMessage, hfix, processFixture, hempty, if_true]

/-- C7.  For every store and every two MatchStateUpdate envelopes (match state
populated, fixture pointer nil) with the same entity id, ingesting the first and
then the second, both writes accepted, leaves in that entity's record each of
the seven match-state fields equal to the second envelope's value; the two
header timestamps are not compared. -/
theorem ProcessMessage_matchState_last_write_wins
    (formatRFC3339 : Time → String) (redisClient : RedisClient) (s : Store)
    (e1 e2 : Message) (st1 st2 : AmericanFootballMatchState)
    (hf1 : e1.Fixture = none) (hm1 : e1.AmericanFootballMatchState = some st1)
    (hf2 : e2.Fixture = none) (hm2 : e2.AmericanFootballMatchState = some st2)
    (hid : st1.FixtureId = st2.FixtureId)
    (haccept1 : redisClient.HSet s ("fixture:" ++ st1.FixtureId)
        (matchStateFields formatRFC3339 st1 e1.Header.TimeStampUtc) =
      (none, hsetApply s ("fixture:" ++ st1.FixtureId)
        (matchStateFields formatRFC3339 st1 e1.Header.TimeStampUtc)))
    (haccept2 : redisClient.HSet (ProcessMessage formatRFC3339 redisClient s e1).2
        ("fixture:" ++ st2.FixtureId)
        (matchStateFields formatRFC3339 st2 e2.Header.TimeStampUtc) =
      (none, hsetApply (ProcessMessage formatRFC3339 redisClient s e1).2
        ("fixture:" ++ st2.FixtureId)
        (matchStateFields formatRFC3339 st2 e2.Header.TimeStampUtc))) :
    let s1 := (ProcessMessage formatRFC3339 redisClient s e1).2
    let r := ProcessMessage formatRFC3339 redisClient s1 e2
    let record := r.2 ("fixture:" ++ st1.FixtureId)
    (ProcessMessage formatRFC3339 redisClient s e1).1 = none ∧ r.1 = none ∧
    record "away" = some (.int st2.Score.Away) ∧
    record "home" = some (.int st2.Score.Home) ∧
    record "is_confirmed" = some (.bool st2.Score.IsConfirmed) ∧
    record "period_num" = some (.int st2.Period.Number) ∧
    record "period_type" = some (.str st2.Period.Type_) ∧
    record "is_running" = some (.bool st2.GameTime.IsRunning) ∧
    record "timestamp" = some (.str (formatRFC3339 e2.Header.TimeStampUtc)) := by
  intro s1 r record
  have h1 : ProcessMessage formatRFC3339 redisClient s e1 =
      (none, hsetApply s ("fixture:" ++ st1.FixtureId)
        (matchStateFields formatRFC3339 st1 e1.Header.TimeStampUtc)) := by
    simp only [ProcessMessage, hf1, hm1, processMatchState, haccept1]
  have h2 : r = (none, hsetApply s1 ("fixture:" ++ st2.FixtureId)
        (matchStateFields formatRFC3339 st2 e2.Header.TimeStampUtc)) := by
    show ProcessMessage formatRFC3339 redisClient s1 e2 = _
    simp only [ProcessMessage, hf2, hm2, processMatchState]
    rw [show redisClient.HSet s1 ("fixture:" ++ st2.FixtureId)
        (matchStateFields formatRFC3339 st2 e2.Header.TimeStampUtc) = _ from haccept2]
  refine ⟨by rw [h1], by rw [h2], ?_⟩
  simp only [record, h2, hid]
  simp [hsetApply, matchStateFields, List.lookup]

/-- C8.  An envelope with neither payload variant populated makes
`ProcessMessage` return the error `unknown message type`, and the store
afterwards is the store before, whatever the Redis client would have
answered. -/
theorem ProcessMessage_unknown_message_type
    (formatRFC3339 : Time → String) (redisClient : RedisClient) (s : Store) (msg : Message)
    (hf : msg.Fixture = none) (hm : msg.AmericanFootballMatchState = none) :
    ProcessMessage formatRFC3339 redisClient s msg = (some "unknown message type", s) := by
  simp only [ProcessMessage, hf, hm]


/-- C5 (witness).  The Rams at home and the Chargers away, every write accepted:
the record of fixture 7 holds both names. -/
theorem ProcessMessage_fixture_stores_team_names_witness :
    (ProcessMessage stubFormat acceptingClient emptyStore ramsChargers).1 = none ∧
    (ProcessMessage stubFormat acceptingClient emptyStore ramsChargers).2
        ("fixture:" ++ toString (7 : Int)) "home_team" = some (.str "Rams") ∧
    (ProcessMessage stubFormat acceptingClient emptyStore ramsChargers).2
        ("fixture:" ++ toString (7 : Int)) "away_team" = some (.str "Chargers") :=
  ProcessMessage_fixture_stores_team_names stubFormat acceptingClient emptyStore ramsChargers
    (Fixture.mk 7 [Competitor.mk 1 "Rams" "Home", Competitor.mk 2 "Chargers" "Away"]
      "Scheduled" 1800000000)
    (Competitor.mk 1 "Rams" "Home") (Competitor.mk 2 "Chargers" "Away")
    rfl (by decide) (by decide) (by decide) (by decide) rfl

/-- C5 (counterexample).  The envelope has exactly one competitor of role Home
(its name the empty string) and exactly one of role Away (named Chargers), and
the store accepts every write; `ProcessMessage` returns an error and writes
nothing. -/
theorem ProcessMessage_fixture_empty_name_rejected :
    unnamedHome.Fixture = some (Fixture.mk 7
      [Competitor.mk 1 "" "Home", Competitor.mk 2 "Chargers" "Away"] "Scheduled" 1800000000) ∧
    [Competitor.mk 1 "" "Home", Competitor.mk 2 "Chargers" "Away"].filter
      (fun c => c.HomeAway = Home) = [Competitor.mk 1 "" "Home"] ∧
    [Competitor.mk 1 "" "Home", Competitor.mk 2 "Chargers" "Away"].filter
      (fun c => c.HomeAway = Away) = [Competitor.mk 2 "Chargers" "Away"] ∧
    (ProcessMessage stubFormat acceptingClient emptyStore unnamedHome).1 =
      some "fixture 7 missing home or away team" ∧
    (ProcessMessage stubFormat acceptingClient emptyStore unnamedHome).2 "fixture:7" "home_team"
      = none := by
  decide

/-- C6 (witness).  A fixture with an Away competitor only is rejected and the
store stays empty. -/
theorem ProcessMessage_fixture_missing_side_witness :
    ProcessMessage stubFormat acceptingClient emptyStore awayOnly =
      (some "fixture 7 missing home or away team", emptyStore) :=
  ProcessMessage_fixture_missing_side stubFormat acceptingClient emptyStore awayOnly
    (Fixture.mk 7 [Competitor.mk 2 "Chargers" "Away"] "Scheduled" 1800000000) rfl
    (Or.inl (by decide))

/-- C7 (witness).  An update stamped 2000 with the home score 14, then one
stamped 1000 with the home score 7: the record holds 7 and the stamp 1000. -/
theorem ProcessMessage_matchState_last_write_wins_witness :
    (ProcessMessage stubFormat acceptingClient
      (ProcessMessage stubFormat acceptingClient emptyStore (scoreUpdate 2000 14 7)).2
      (scoreUpdate 1000 7 7)).2 "fixture:77" "home" = some (.int 7) ∧
    (ProcessMessage stubFormat acceptingClient
      (ProcessMessage stubFormat acceptingClient emptyStore (scoreUpdate 2000 14 7)).2
      (scoreUpdate 1000 7 7)).2 "fixture:77" "timestamp" = some (.str (stubFormat 1000)) :=
  have h := ProcessMessage_matchState_last_write_wins stubFormat acceptingClient emptyStore
    (scoreUpdate 2000 14 7) (scoreUpdate 1000 7 7)
    (AmericanFootballMatchState.mk (Score.mk 7 14 true) (Period.mk "Q2" 2)
      (GameTime.mk "07:31" true 2000) "77")
    (AmericanFootballMatchState.mk (Score.mk 7 7 true) (Period.mk "Q2" 2)
      (GameTime.mk "07:31" true 1000) "77")
    rfl rfl rfl rfl rfl rfl rfl
  ⟨h.2.2.2.1, h.2.2.2.2.2.2.2.2⟩

/-- C8 (witness).  An envelope with a header only is rejected and the store
stays empty. -/
theorem ProcessMessage_unknown_message_type_witness :
    ProcessMessage stubFormat acceptingClient emptyStore headerOnly =
      (some "unknown message type", emptyStore) :=
  ProcessMessage_unknown_message_type stubFormat acceptingClient emptyStore headerOnly rfl rfl


/-! ## Unquoting (parser.go lines 60 to 68) -/

theorem replaceDoubledQuotes_cons_of_ne (c : Char) (rest : List Char) (hc : c ≠ dq) :
    replaceDoubledQuotes (c :: rest) = c :: replaceDoubledQuotes rest := by
  cases rest with
  | nil => rfl
  | cons d rest => simp [replaceDoubledQuotes, hc]

theorem replaceDoubledQuotes_cons_cons_of_ne (c d : Char) (rest : List Char) (hd : d ≠ dq) :
    replaceDoubledQuotes (c :: d :: rest) = c :: replaceDoubledQuotes (d :: rest) := by
  simp [replaceDoubledQuotes, hd]

/-- Replacing doubled quotes undoes the doubling of every quote, whatever
follows the doubled text. -/
theorem replaceDoubledQuotes_doubled_append (s t : List Char) :
    replaceDoubledQuotes ((s.flatMap (fun c => if c = dq then [dq, dq] else [c])) ++ t) =
      s ++ replaceDoubledQuotes t := by
  induction s with
  | nil => rfl
  | cons c s ih =>
    by_cases hc : c = dq
    · subst hc
      simp only [List.flatMap_cons, if_true, List.cons_append, List.nil_append]
      rw [replaceDoubledQuotes]
      simp [ih]
    · simp only [List.flatMap_cons, hc, if_false, List.cons_append, List.nil_append]
      rw [replaceDoubledQuotes_cons_of_ne _ _ hc, ih]

/-- The unquoting step maps the quoted form of a record text that does not
begin with a double quote back to the text. -/
theorem unquote_quoteRecord_of_head (c : Char) (s : List Char) (hc : c ≠ dq) :
    stripOuterQuotes (replaceDoubledQuotes (quoteRecord (c :: s))) = c :: s := by
  have hrep : replaceDoubledQuotes (quoteRecord (c :: s)) = dq :: ((c :: s) ++ [dq]) := by
    unfold quoteRecord
    simp only [List.flatMap_cons, hc, if_false, List.cons_append, List.nil_append]
    rw [replaceDoubledQuotes_cons_cons_of_ne _ _ _ hc, replaceDoubledQuotes_cons_of_ne _ _ hc,
      replaceDoubledQuotes_doubled_append]
    rfl
  rw [hrep]
  unfold stripOuterQuotes
  have hlast : (dq :: ((c :: s) ++ [dq])).getLast? = some dq := by
    rw [← List.cons_append, List.getLast?_append]; rfl
  rw [if_pos ⟨by simp only [List.length_cons, List.length_append]; omega, rfl, hlast⟩]
  show ((c :: s) ++ [dq]).dropLast = c :: s
  exact List.dropLast_concat

/-- C9.  For every record text `s` that begins with an opening brace and ends
with a closing brace, doubling every double quote of `s`, wrapping the result in
one pair of double quotes and then applying the unquoting step of `ParseFile`
(replace every doubled quote by one, strip one leading and one trailing quote)
yields `s` again. -/
theorem unquoteLine_quoteRecord (s : String)
    (hopen : s.data.head? = some lbrace) (hclose : s.data.getLast? = some rbrace) :
    unquoteLine (String.mk (quoteRecord s.data)) = s := by
  have _ := hclose
  obtain ⟨l⟩ := s
  cases l with
  | nil => simp at hopen
  | cons c l =>
    have hc : c = lbrace := by simpa using hopen
    have hne : c ≠ dq := by rw [hc]; decide
    show String.mk (stripOuterQuotes (replaceDoubledQuotes (quoteRecord (c :: l)))) = _
    rw [unquote_quoteRecord_of_head c l hne]

/-- C9 (witness).  A record text with an empty string value, whose quoted form
holds a run of four double quotes. -/
theorem unquoteLine_quoteRecord_witness :
    ("\x7b\"Header\":\x7b\"MessageGuid\":\"\"\x7d\x7d" : String).data.head? = some lbrace ∧
    unquoteLine (String.mk (quoteRecord
      ("\x7b\"Header\":\x7b\"MessageGuid\":\"\"\x7d\x7d" : String).data)) =
      "\x7b\"Header\":\x7b\"MessageGuid\":\"\"\x7d\x7d" :=
  ⟨by decide, unquoteLine_quoteRecord _ (by decide) (by decide)⟩

/-! ## The library sort (`sort.Slice`) -/

section SortProofs

variable {α : Type}

theorem lessAt_eq (less : α → α → Bool) (k : α → Int) (h : OrdersBy less k) (data : List α)
    (i j : Nat) (hi : i < data.length) (hj : j < data.length) :
    lessAt less data i j = decide (keyAt k data i < keyAt k data j) := by
  unfold lessAt keyAt
  rw [List.getElem?_eq_getElem hi, List.getElem?_eq_getElem hj]
  exact h _ _

theorem lessAt_true_iff (less : α → α → Bool) (k : α → Int) (h : OrdersBy less k) (data : List α)
    (i j : Nat) (hi : i < data.length) (hj : j < data.length) :
    lessAt less data i j = true ↔ keyAt k data i < keyAt k data j := by
  rw [lessAt_eq less k h data i j hi hj]; simp

theorem lessAt_false_iff (less : α → α → Bool) (k : α → Int) (h : OrdersBy less k) (data : List α)
    (i j : Nat) (hi : i < data.length) (hj : j < data.length) :
    lessAt less data i j = false ↔ keyAt k data j ≤ keyAt k data i := by
  rw [lessAt_eq less k h data i j hi hj]; simp

theorem swapAt_length (data : List α) (i j : Nat) : (swapAt data i j).length = data.length := by
  unfold swapAt
  split <;> simp

theorem swapAt_getElem? (data : List α) (i j m : Nat) (hi : i < data.length)
    (hj : j < data.length) :
    (swapAt data i j)[m]? = data[if m = i then j else if m = j then i else m]? := by
  unfold swapAt
  rw [List.getElem?_eq_getElem hi, List.getElem?_eq_getElem hj]
  simp only [List.getElem?_set, List.length_set]
  by_cases h1 : m = j
  · subst h1
    by_cases h2 : m = i
    · subst h2; simp [hi]
    · simp [hj, h2, List.getElem?_eq_getElem hi]
  · by_cases h2 : m = i
    · subst h2
      simp [Ne.symm h1, hi, List.getElem?_eq_getElem hj]
    · simp [Ne.symm h1, Ne.symm h2, h1, h2]

theorem keyAt_swapAt (k : α → Int) (data : List α) (i j m : Nat) (hi : i < data.length)
    (hj : j < data.length) :
    keyAt k (swapAt data i j) m = keyAt k data (if m = i then j else if m = j then i else m) := by
  unfold keyAt
  rw [swapAt_getElem? data i j m hi hj]

theorem cons_set_perm (x y : α) : ∀ (t : List α) (j : Nat), t[j]? = some y →
    (y :: t.set j x).Perm (x :: t) := by
  intro t
  induction t with
  | nil => intro j h; simp at h
  | cons h t ih =>
    intro j hj
    cases j with
    | zero =>
      simp at hj
      subst hj
      simp only [List.set_cons_zero]
      exact List.Perm.swap _ _ _
    | succ j =>
      simp at hj
      simp only [List.set_cons_succ]
      exact (List.Perm.swap _ _ _).trans (((ih j hj).cons h).trans (List.Perm.swap _ _ _))

theorem set_set_perm : ∀ (l : List α) (i j : Nat) (x y : α), l[i]? = some x → l[j]? = some y →
    ((l.set i y).set j x).Perm l := by
  intro l
  induction l with
  | nil => intro i j x y h; simp at h
  | cons h t ih =>
    intro i j x y hi hj
    cases i with
    | zero =>
      simp at hi; subst hi
      cases j with
      | zero => simp at hj; subst hj; simp
      | succ j =>
        simp at hj
        simp only [List.set_cons_zero, List.set_cons_succ]
        exact cons_set_perm h y t j hj
    | succ i =>
      simp at hi
      cases j with
      | zero =>
        simp at hj; subst hj
        simp only [List.set_cons_zero, List.set_cons_succ]
        exact cons_set_perm h x t i hi
      | succ j =>
        simp at hj
        simp only [List.set_cons_succ]
        exact (ih i j x y hi hj).cons h

theorem swapAt_perm (data : List α) (i j : Nat) : (swapAt data i j).Perm data := by
  unfold swapAt
  split
  · next x y hx hy => exact set_set_perm data i j x y hx hy
  · exact List.Perm.refl _

theorem Reach.len {a b : Nat} {d d' : List α} (h : Reach a b d d') : d'.length = d.length :=
  h.perm.length_eq

theorem Reach.refl (a b : Nat) (d : List α) : Reach a b d d :=
  ⟨List.Perm.refl _, fun _ _ => rfl, fun m h1 h2 => ⟨m, h1, h2, rfl⟩⟩

theorem Reach.trans {a b : Nat} {d1 d2 d3 : List α} (h12 : Reach a b d1 d2)
    (h23 : Reach a b d2 d3) : Reach a b d1 d3 := by
  refine ⟨h23.perm.trans h12.perm, fun m hm => (h23.out m hm).trans (h12.out m hm), ?_⟩
  intro m h1 h2
  obtain ⟨m', h1', h2', e⟩ := h23.inn m h1 h2
  obtain ⟨m'', h1'', h2'', e'⟩ := h12.inn m' h1' h2'
  exact ⟨m'', h1'', h2'', e.trans e'⟩

theorem Reach.mono {a b a' b' : Nat} {d d' : List α} (h : Reach a b d d') (ha : a' ≤ a)
    (hb : b ≤ b') : Reach a' b' d d' := by
  refine ⟨h.perm, fun m hm => h.out m (by omega), ?_⟩
  intro m h1 h2
  by_cases hin : a ≤ m ∧ m < b
  · obtain ⟨m', h1', h2', e⟩ := h.inn m hin.1 hin.2
    exact ⟨m', by omega, by omega, e⟩
  · exact ⟨m, h1, h2, h.out m (by omega)⟩

theorem Reach.swap (a b : Nat) (d : List α) (i j : Nat) (hai : a ≤ i) (hib : i < b)
    (haj : a ≤ j) (hjb : j < b) (hb : b ≤ d.length) : Reach a b d (swapAt d i j) := by
  have hi : i < d.length := by omega
  have hj : j < d.length := by omega
  refine ⟨swapAt_perm d i j, ?_, ?_⟩
  · intro m hm
    rw [swapAt_getElem? d i j m hi hj]
    have h1 : m ≠ i := by omega
    have h2 : m ≠ j := by omega
    simp [h1, h2]
  · intro m h1 h2
    refine ⟨if m = i then j else if m = j then i else m, ?_, ?_, swapAt_getElem? d i j m hi hj⟩
    · split_ifs <;> omega
    · split_ifs <;> omega

theorem Reach.keyAt_out {a b : Nat} {d d' : List α} (h : Reach a b d d') (k : α → Int) (m : Nat)
    (hm : m < a ∨ b ≤ m) : keyAt k d' m = keyAt k d m := by
  unfold keyAt; rw [h.out m hm]

theorem Reach.keyAt_inn {a b : Nat} {d d' : List α} (h : Reach a b d d') (k : α → Int) (m : Nat)
    (h1 : a ≤ m) (h2 : m < b) : ∃ m', a ≤ m' ∧ m' < b ∧ keyAt k d' m = keyAt k d m' := by
  obtain ⟨m', h1', h2', e⟩ := h.inn m h1 h2
  exact ⟨m', h1', h2', by unfold keyAt; rw [e]⟩

theorem insertionInner_spec (less : α → α → Bool) (k : α → Int) (hk : OrdersBy less k)
    (a i : Nat) :
    ∀ (j : Nat) (data : List α), a ≤ j → j ≤ i → i < data.length → InsertInv k data a i j →
      Reach a (i + 1) data (insertionInner less a j data) ∧
      SortedRange k (insertionInner less a j data) a (i + 1) := by
  intro j
  induction j with
  | zero =>
    intro data ha _ _ hI
    simp only [insertionInner]
    refine ⟨Reach.refl _ _ _, ?_⟩
    intro p q hp hpq hq
    by_cases hp0 : p = 0
    · by_cases hq0 : q = 0
      · subst hp0; subst hq0; exact le_refl _
      · subst hp0; exact hI.2 q (by omega) (by omega)
    · exact hI.1 p q hp hpq (by omega) hp0 (by omega)
  | succ j ih =>
    intro data ha hji hlen hI
    rw [insertionInner]
    by_cases hc : a < j + 1 ∧ lessAt less data (j + 1) j = true
    · rw [if_pos hc]
      obtain ⟨haj, hless⟩ := hc
      have hlt : keyAt k data (j + 1) < keyAt k data j :=
        (lessAt_true_iff less k hk data (j + 1) j (by omega) (by omega)).1 hless
      have hsw : ∀ m, keyAt k (swapAt data (j + 1) j) m =
          keyAt k data (if m = j + 1 then j else if m = j then j + 1 else m) :=
        fun m => keyAt_swapAt k data (j + 1) j m (by omega) (by omega)
      have hI' : InsertInv k (swapAt data (j + 1) j) a i j := by
        constructor
        · intro p q hp hpq hq hpj hqj
          rw [hsw p, hsw q]
          by_cases hp1 : p = j + 1
          · by_cases hq1 : q = j + 1
            · simp [hp1, hq1]
            · rw [if_pos hp1, if_neg hq1, if_neg hqj]
              exact hI.1 j q (by omega) (by omega) hq (by omega) hq1
          · by_cases hq1 : q = j + 1
            · rw [if_neg hp1, if_neg hpj, if_pos hq1]
              exact hI.1 p j hp (by omega) (by omega) hp1 (by omega)
            · rw [if_neg hp1, if_neg hpj, if_neg hq1, if_neg hqj]
              exact hI.1 p q hp hpq hq hp1 hq1
        · intro q hjq hq
          rw [hsw j, hsw q]
          rw [if_neg (by omega), if_pos rfl]
          by_cases hq1 : q = j + 1
          · rw [if_pos hq1]; exact le_of_lt hlt
          · rw [if_neg hq1, if_neg (by omega)]
            exact hI.2 q (by omega) hq
      have hlen' : i < (swapAt data (j + 1) j).length := by rw [swapAt_length]; exact hlen
      obtain ⟨hr, hs⟩ := ih (swapAt data (j + 1) j) (by omega) (by omega) hlen' hI'
      exact ⟨(Reach.swap a (i + 1) data (j + 1) j (by omega) (by omega) (by omega) (by omega)
        (by omega)).trans hr, hs⟩
    · rw [if_neg hc]
      refine ⟨Reach.refl _ _ _, ?_⟩
      have hstop : a = j + 1 ∨ keyAt k data j ≤ keyAt k data (j + 1) := by
        by_cases haj : a < j + 1
        · right
          have : lessAt less data (j + 1) j = false := by
            cases hl : lessAt less data (j + 1) j with
            | false => rfl
            | true => exact absurd ⟨haj, hl⟩ hc
          exact (lessAt_false_iff less k hk data (j + 1) j (by omega) (by omega)).1 this
        · left; omega
      intro p q hp hpq hq
      by_cases hp1 : p = j + 1
      · by_cases hq1 : q = j + 1
        · rw [hp1, hq1]
        · rw [hp1]; exact hI.2 q (by omega) (by omega)
      · by_cases hq1 : q = j + 1
        · rcases hstop with h | h
          · omega
          · have h1 : keyAt k data p ≤ keyAt k data j :=
              hI.1 p j hp (by omega) (by omega) hp1 (by omega)
            rw [hq1]; exact le_trans h1 h
        · exact hI.1 p q hp hpq (by omega) hp1 hq1

theorem insertionOuter_spec (less : α → α → Bool) (k : α → Int) (hk : OrdersBy less k)
    (a b : Nat) :
    ∀ (fuel i : Nat) (data : List α), a < i → i ≤ b → b ≤ data.length → b - i ≤ fuel →
      SortedRange k data a i →
      Reach a b data (insertionOuter less a b fuel i data) ∧
      SortedRange k (insertionOuter less a b fuel i data) a b := by
  intro fuel
  induction fuel with
  | zero =>
    intro i data _ hib _ hf hs
    simp only [insertionOuter]
    have : i = b := by omega
    subst this
    exact ⟨Reach.refl _ _ _, hs⟩
  | succ fuel ih =>
    intro i data hai hib hlen hf hs
    rw [insertionOuter]
    by_cases hlt : i < b
    · rw [if_pos hlt]
      have hI : InsertInv k data a i i := by
        constructor
        · intro p q hp hpq hq _ hqi
          exact hs p q hp hpq (by omega)
        · intro q h1 h2; omega
      obtain ⟨hr1, hs1⟩ := insertionInner_spec less k hk a i i data (by omega) (le_refl _)
        (by omega) hI
      have hlen1 : b ≤ (insertionInner less a i data).length := by rw [hr1.len]; exact hlen
      obtain ⟨hr2, hs2⟩ := ih (i + 1) (insertionInner less a i data) (by omega) (by omega) hlen1
        (by omega) hs1
      exact ⟨(hr1.mono (le_refl _) (by omega)).trans hr2, hs2⟩
    · rw [if_neg hlt]
      have : i = b := by omega
      subst this
      exact ⟨Reach.refl _ _ _, hs⟩

theorem insertionSort_func_spec (less : α → α → Bool) (k : α → Int) (hk : OrdersBy less k)
    (data : List α) (a b : Nat) (hb : b ≤ data.length) :
    Reach a b data (insertionSort_func less data a b) ∧
    SortedRange k (insertionSort_func less data a b) a b := by
  unfold insertionSort_func
  by_cases hab : a < b
  · refine insertionOuter_spec less k hk a b (b - a) (a + 1) data (by omega) (by omega) hb
      (by omega) ?_
    intro i j hi hij hj
    have : i = j := by omega
    rw [this]
  · have h0 : b - a = 0 := by omega
    rw [h0]
    simp only [insertionOuter]
    exact ⟨Reach.refl _ _ _, fun i j hi hij hj => by omega⟩


theorem scanUp_spec (less : α → α → Bool) (k : α → Int) (hk : OrdersBy less k)
    (data : List α) (a j : Nat) (hj : j < data.length) (ha : a < data.length) :
    ∀ (fuel i : Nat), i ≤ j + 1 → j + 1 ≤ i + fuel →
      i ≤ scanUp less data a j fuel i ∧ scanUp less data a j fuel i ≤ j + 1 ∧
      (∀ m, i ≤ m → m < scanUp less data a j fuel i → keyAt k data m < keyAt k data a) ∧
      (scanUp less data a j fuel i ≤ j →
        keyAt k data a ≤ keyAt k data (scanUp less data a j fuel i)) := by
  intro fuel
  induction fuel with
  | zero =>
    intro i h1 h2
    simp only [scanUp]
    exact ⟨le_refl _, h1, fun m _ _ => by omega, fun h => by omega⟩
  | succ fuel ih =>
    intro i h1 h2
    rw [scanUp]
    by_cases hc : i ≤ j ∧ lessAt less data i a = true
    · rw [if_pos hc]
      obtain ⟨hij, hless⟩ := hc
      have hlt := (lessAt_true_iff less k hk data i a (by omega) ha).1 hless
      obtain ⟨r1, r2, r3, r4⟩ := ih (i + 1) (by omega) (by omega)
      refine ⟨by omega, r2, ?_, r4⟩
      intro m hm1 hm2
      by_cases hmi : m = i
      · rw [hmi]; exact hlt
      · exact r3 m (by omega) hm2
    · rw [if_neg hc]
      refine ⟨le_refl _, h1, fun m _ _ => by omega, ?_⟩
      intro hij
      have : lessAt less data i a = false := by
        cases hl : lessAt less data i a with
        | false => rfl
        | true => exact absurd ⟨hij, hl⟩ hc
      exact (lessAt_false_iff less k hk data i a (by omega) ha).1 this

theorem scanDown_spec (less : α → α → Bool) (k : α → Int) (hk : OrdersBy less k)
    (data : List α) (a i : Nat) (ha : a < data.length) (hi : 1 ≤ i) :
    ∀ (fuel j : Nat), j < data.length → i ≤ j + 1 → j + 1 ≤ i + fuel →
      scanDown less data a i fuel j ≤ j ∧ i ≤ scanDown less data a i fuel j + 1 ∧
      (∀ m, scanDown less data a i fuel j < m → m ≤ j → keyAt k data a ≤ keyAt k data m) ∧
      (i ≤ scanDown less data a i fuel j →
        keyAt k data (scanDown less data a i fuel j) < keyAt k data a) := by
  intro fuel
  induction fuel with
  | zero =>
    intro j _ h1 h2
    simp only [scanDown]
    exact ⟨le_refl _, h1, fun m _ _ => by omega, fun h => by omega⟩
  | succ fuel ih =>
    intro j hj h1 h2
    rw [scanDown]
    by_cases hc : i ≤ j ∧ lessAt less data j a = false
    · rw [if_pos hc]
      obtain ⟨hij, hless⟩ := hc
      have hle := (lessAt_false_iff less k hk data j a hj ha).1 hless
      obtain ⟨r1, r2, r3, r4⟩ := ih (j - 1) (by omega) (by omega) (by omega)
      refine ⟨by omega, r2, ?_, r4⟩
      intro m hm1 hm2
      by_cases hmj : m = j
      · rw [hmj]; exact hle
      · exact r3 m hm1 (by omega)
    · rw [if_neg hc]
      refine ⟨le_refl _, h1, fun m _ _ => by omega, ?_⟩
      intro hij
      have : lessAt less data j a = true := by
        cases hl : lessAt less data j a with
        | true => rfl
        | false => exact absurd ⟨hij, hl⟩ hc
      exact (lessAt_true_iff less k hk data j a hj ha).1 this

/-- The closing loop of `partition_func` keeps the pivot at `a`, rearranges
`[a + 1, b)` and ends with the keys up to the returned `j` below the pivot's and
those after it not below. -/
theorem partitionLoop_spec (less : α → α → Bool) (k : α → Int) (hk : OrdersBy less k)
    (a b : Nat) :
    ∀ (fuel i j : Nat) (data : List α), a + 1 ≤ i → i ≤ j + 1 → j < b → b ≤ data.length →
      j + 1 ≤ i + fuel →
      (∀ m, a + 1 ≤ m → m < i → keyAt k data m < keyAt k data a) →
      (∀ m, j < m → m < b → keyAt k data a ≤ keyAt k data m) →
      Reach (a + 1) b data (partitionLoop less a fuel i j data).1 ∧
      a ≤ (partitionLoop less a fuel i j data).2 ∧ (partitionLoop less a fuel i j data).2 < b ∧
      (∀ m, a + 1 ≤ m → m ≤ (partitionLoop less a fuel i j data).2 →
        keyAt k (partitionLoop less a fuel i j data).1 m <
          keyAt k (partitionLoop less a fuel i j data).1 a) ∧
      (∀ m, (partitionLoop less a fuel i j data).2 < m → m < b →
        keyAt k (partitionLoop less a fuel i j data).1 a ≤
          keyAt k (partitionLoop less a fuel i j data).1 m) := by
  intro fuel
  induction fuel with
  | zero =>
    intro i j data hi hij hjb hlen hf hlo hhi
    simp only [partitionLoop]
    refine ⟨Reach.refl _ _ _, by omega, hjb, ?_, hhi⟩
    intro m hm1 hm2
    exact hlo m hm1 (by omega)
  | succ fuel ih =>
    intro i j data hi hij hjb hlen hf hlo hhi
    rw [partitionLoop]
    have hu := scanUp_spec less k hk data a j (by omega) (by omega) (j + 1) i hij (by omega)
    generalize scanUp less data a j (j + 1) i = i' at hu ⊢
    obtain ⟨u1, u2, u3, u4⟩ := hu
    have hv := scanDown_spec less k hk data a i' (by omega) (by omega) (j + 1) j
      (by omega) u2 (by omega)
    generalize scanDown less data a i' (j + 1) j = j' at hv ⊢
    obtain ⟨v1, v2, v3, v4⟩ := hv
    by_cases hc : j' < i'
    · rw [if_pos hc]
      refine ⟨Reach.refl _ _ _, by omega, by omega, ?_, ?_⟩
      · intro m hm1 hm2
        by_cases hmi : m < i
        · exact hlo m hm1 hmi
        · exact u3 m (by omega) (by omega)
      · intro m hm1 hm2
        by_cases hmj : j < m
        · exact hhi m hmj hm2
        · exact v3 m hm1 (by omega)
    · rw [if_neg hc]
      have hi'len : i' < data.length := by omega
      have hj'len : j' < data.length := by omega
      have hsw : ∀ m, keyAt k (swapAt data i' j') m =
          keyAt k data (if m = i' then j' else if m = j' then i' else m) :=
        fun m => keyAt_swapAt k data i' j' m hi'len hj'len
      have hia : keyAt k data a ≤ keyAt k data i' := u4 (by omega)
      have hja : keyAt k data j' < keyAt k data a := v4 (by omega)
      have hne : i' ≠ j' := by
        intro h
        rw [h] at hia
        omega
      have hane_i : a ≠ i' := by omega
      have hane_j : a ≠ j' := by omega
      have hkeya : keyAt k (swapAt data i' j') a = keyAt k data a := by
        rw [hsw a, if_neg hane_i, if_neg hane_j]
      have hrs : Reach (a + 1) b data (swapAt data i' j') :=
        Reach.swap (a + 1) b data i' j' (by omega) (by omega) (by omega) (by omega) hlen
      obtain ⟨r1, r2, r3, r4, r5⟩ := ih (i' + 1) (j' - 1) (swapAt data i' j') (by omega)
        (by omega) (by omega) (by rw [swapAt_length]; exact hlen) (by omega)
        (by
          intro m hm1 hm2
          rw [hkeya, hsw m]
          by_cases hmi' : m = i'
          · rw [if_pos hmi']; exact hja
          · rw [if_neg hmi', if_neg (by omega)]
            by_cases hmi : m < i
            · exact hlo m hm1 hmi
            · exact u3 m (by omega) (by omega))
        (by
          intro m hm1 hm2
          rw [hkeya, hsw m]
          by_cases hmj' : m = j'
          · rw [if_neg (by omega), if_pos hmj']; exact hia
          · rw [if_neg (by omega), if_neg hmj']
            by_cases hmj : j < m
            · exact hhi m hmj hm2
            · exact v3 m (by omega) (by omega))
      exact ⟨hrs.trans r1, r2, r3, r4, r5⟩

/-- Swapping the pivot from `a` to `j`, when the keys of `[a + 1, j]` are below
the pivot's and those of `(j, b)` are not, leaves `[a, b)` partitioned around
`j`. -/
theorem pivot_swap_spec (k : α → Int) (d : List α) (a b j : Nat) (haj : a ≤ j) (hjb : j < b)
    (hlen : b ≤ d.length)
    (hlo : ∀ m, a + 1 ≤ m → m ≤ j → keyAt k d m < keyAt k d a)
    (hhi : ∀ m, j < m → m < b → keyAt k d a ≤ keyAt k d m) :
    Reach a b d (swapAt d j a) ∧
    (∀ m, a ≤ m → m < j → keyAt k (swapAt d j a) m < keyAt k (swapAt d j a) j) ∧
    (∀ m, j < m → m < b → keyAt k (swapAt d j a) j ≤ keyAt k (swapAt d j a) m) := by
  have hsw : ∀ m, keyAt k (swapAt d j a) m =
      keyAt k d (if m = j then a else if m = a then j else m) :=
    fun m => keyAt_swapAt k d j a m (by omega) (by omega)
  refine ⟨Reach.swap a b d j a haj hjb (le_refl _) (by omega) hlen, ?_, ?_⟩
  · intro m hm1 hm2
    rw [hsw m, hsw j, if_pos rfl, if_neg (by omega)]
    by_cases hma : m = a
    · rw [if_pos hma]; exact hlo j (by omega) (le_refl _)
    · rw [if_neg hma]; exact hlo m (by omega) (by omega)
  · intro m hm1 hm2
    rw [hsw m, hsw j, if_pos rfl, if_neg (by omega), if_neg (by omega)]
    exact hhi m hm1 hm2

/-- `partition_func` rearranges `[a, b)` around the returned index: the keys
before it are below its key and the keys after it are not. -/
theorem partition_func_spec (less : α → α → Bool) (k : α → Int) (hk : OrdersBy less k)
    (data : List α) (a b pivot : Nat) (hap : a ≤ pivot) (hpb : pivot < b)
    (hlen : b ≤ data.length) :
    Reach a b data (partition_func less data a b pivot).1 ∧
    a ≤ (partition_func less data a b pivot).2.1 ∧ (partition_func less data a b pivot).2.1 < b ∧
    (∀ m, a ≤ m → m < (partition_func less data a b pivot).2.1 →
      keyAt k (partition_func less data a b pivot).1 m <
        keyAt k (partition_func less data a b pivot).1 (partition_func less data a b pivot).2.1) ∧
    (∀ m, (partition_func less data a b pivot).2.1 < m → m < b →
      keyAt k (partition_func less data a b pivot).1 (partition_func less data a b pivot).2.1 ≤
        keyAt k (partition_func less data a b pivot).1 m) := by
  unfold partition_func
  dsimp only
  have hr1 : Reach a b data (swapAt data a pivot) :=
    Reach.swap a b data a pivot (le_refl _) (by omega) hap hpb hlen
  have hlen1 : b ≤ (swapAt data a pivot).length := by rw [swapAt_length]; exact hlen
  generalize swapAt data a pivot = d1 at hr1 hlen1 ⊢
  have hu := scanUp_spec less k hk d1 a (b - 1) (by omega) (by omega)
    (b - 1 + 1) (a + 1) (by omega) (by omega)
  generalize scanUp less d1 a (b - 1) (b - 1 + 1) (a + 1) = i1 at hu ⊢
  obtain ⟨u1, u2, u3, u4⟩ := hu
  have hv := scanDown_spec less k hk d1 a i1 (by omega) (by omega)
    (b - 1 + 1) (b - 1) (by omega) u2 (by omega)
  generalize scanDown less d1 a i1 (b - 1 + 1) (b - 1) = j1 at hv ⊢
  obtain ⟨v1, v2, v3, v4⟩ := hv
  by_cases hc : j1 < i1
  · rw [if_pos hc]
    dsimp only
    obtain ⟨p1, p2, p3⟩ := pivot_swap_spec k d1 a b j1 (by omega) (by omega) hlen1
      (fun m hm1 hm2 => u3 m hm1 (by omega)) (fun m hm1 hm2 => v3 m hm1 (by omega))
    exact ⟨hr1.trans p1, by omega, by omega, p2, p3⟩
  · rw [if_neg hc]
    dsimp only
    have hia : keyAt k d1 a ≤ keyAt k d1 i1 := u4 (by omega)
    have hja : keyAt k d1 j1 < keyAt k d1 a := v4 (by omega)
    have hne : i1 ≠ j1 := by
      intro h
      rw [h] at hia
      omega
    have hsw : ∀ m, keyAt k (swapAt d1 i1 j1) m =
        keyAt k d1 (if m = i1 then j1 else if m = j1 then i1 else m) :=
      fun m => keyAt_swapAt k d1 i1 j1 m (by omega) (by omega)
    have hkeya : keyAt k (swapAt d1 i1 j1) a = keyAt k d1 a := by
      rw [hsw a, if_neg (by omega), if_neg (by omega)]
    have hr2 : Reach a b d1 (swapAt d1 i1 j1) :=
      Reach.swap a b d1 i1 j1 (by omega) (by omega) (by omega) (by omega) hlen1
    have hlen2 : b ≤ (swapAt d1 i1 j1).length := by rw [swapAt_length]; exact hlen1
    obtain ⟨r1, r2, r3, r4, r5⟩ := partitionLoop_spec less k hk a b (b - a) (i1 + 1) (j1 - 1)
      (swapAt d1 i1 j1) (by omega) (by omega) (by omega) hlen2 (by omega)
      (by
        intro m hm1 hm2
        rw [hkeya, hsw m]
        by_cases hmi : m = i1
        · rw [if_pos hmi]; exact hja
        · rw [if_neg hmi, if_neg (by omega)]
          exact u3 m hm1 (by omega))
      (by
        intro m hm1 hm2
        rw [hkeya, hsw m]
        by_cases hmj : m = j1
        · rw [if_neg (by omega), if_pos hmj]; exact hia
        · rw [if_neg (by omega), if_neg hmj]
          exact v3 m (by omega) (by omega))
    generalize partitionLoop less a (b - a) (i1 + 1) (j1 - 1) (swapAt d1 i1 j1) = r
      at r1 r2 r3 r4 r5 ⊢
    have hlen3 : b ≤ r.1.length := by rw [r1.len]; exact hlen2
    obtain ⟨p1, p2, p3⟩ := pivot_swap_spec k r.1 a b r.2 r2 r3 hlen3 r4 r5
    exact ⟨(hr1.trans hr2).trans ((r1.mono (by omega) (le_refl _)).trans p1), r2, r3, p2, p3⟩


theorem scanUpEqual_spec (less : α → α → Bool) (k : α → Int) (hk : OrdersBy less k)
    (data : List α) (a j : Nat) (hj : j < data.length) (ha : a < data.length) :
    ∀ (fuel i : Nat), i ≤ j + 1 → j + 1 ≤ i + fuel →
      i ≤ scanUpEqual less data a j fuel i ∧ scanUpEqual less data a j fuel i ≤ j + 1 ∧
      (∀ m, i ≤ m → m < scanUpEqual less data a j fuel i → keyAt k data m ≤ keyAt k data a) ∧
      (scanUpEqual less data a j fuel i ≤ j →
        keyAt k data a < keyAt k data (scanUpEqual less data a j fuel i)) := by
  intro fuel
  induction fuel with
  | zero =>
    intro i h1 h2
    simp only [scanUpEqual]
    exact ⟨le_refl _, h1, fun m _ _ => by omega, fun h => by omega⟩
  | succ fuel ih =>
    intro i h1 h2
    rw [scanUpEqual]
    by_cases hc : i ≤ j ∧ lessAt less data a i = false
    · rw [if_pos hc]
      obtain ⟨hij, hless⟩ := hc
      have hle := (lessAt_false_iff less k hk data a i ha (by omega)).1 hless
      obtain ⟨r1, r2, r3, r4⟩ := ih (i + 1) (by omega) (by omega)
      refine ⟨by omega, r2, ?_, r4⟩
      intro m hm1 hm2
      by_cases hmi : m = i
      · rw [hmi]; exact hle
      · exact r3 m (by omega) hm2
    · rw [if_neg hc]
      refine ⟨le_refl _, h1, fun m _ _ => by omega, ?_⟩
      intro hij
      have : lessAt less data a i = true := by
        cases hl : lessAt less data a i with
        | true => rfl
        | false => exact absurd ⟨hij, hl⟩ hc
      exact (lessAt_true_iff less k hk data a i ha (by omega)).1 this

theorem scanDownEqual_spec (less : α → α → Bool) (k : α → Int) (hk : OrdersBy less k)
    (data : List α) (a i : Nat) (ha : a < data.length) (hi : 1 ≤ i) :
    ∀ (fuel j : Nat), j < data.length → i ≤ j + 1 → j + 1 ≤ i + fuel →
      scanDownEqual less data a i fuel j ≤ j ∧ i ≤ scanDownEqual less data a i fuel j + 1 ∧
      (∀ m, scanDownEqual less data a i fuel j < m → m ≤ j →
        keyAt k data a < keyAt k data m) ∧
      (i ≤ scanDownEqual less data a i fuel j →
        keyAt k data (scanDownEqual less data a i fuel j) ≤ keyAt k data a) := by
  intro fuel
  induction fuel with
  | zero =>
    intro j _ h1 h2
    simp only [scanDownEqual]
    exact ⟨le_refl _, h1, fun m _ _ => by omega, fun h => by omega⟩
  | succ fuel ih =>
    intro j hj h1 h2
    rw [scanDownEqual]
    by_cases hc : i ≤ j ∧ lessAt less data a j = true
    · rw [if_pos hc]
      obtain ⟨hij, hless⟩ := hc
      have hlt := (lessAt_true_iff less k hk data a j ha hj).1 hless
      obtain ⟨r1, r2, r3, r4⟩ := ih (j - 1) (by omega) (by omega) (by omega)
      refine ⟨by omega, r2, ?_, r4⟩
      intro m hm1 hm2
      by_cases hmj : m = j
      · rw [hmj]; exact hlt
      · exact r3 m hm1 (by omega)
    · rw [if_neg hc]
      refine ⟨le_refl _, h1, fun m _ _ => by omega, ?_⟩
      intro hij
      have : lessAt less data a j = false := by
        cases hl : lessAt less data a j with
        | false => rfl
        | true => exact absurd ⟨hij, hl⟩ hc
      exact (lessAt_false_iff less k hk data a j ha hj).1 this

/-- The loop of `partitionEqual_func` keeps the pivot at `a`, rearranges
`[a + 1, b)` and ends with the keys before the returned `i` not above the
pivot's and those from it on above. -/
theorem partitionEqualLoop_spec (less : α → α → Bool) (k : α → Int) (hk : OrdersBy less k)
    (a b : Nat) :
    ∀ (fuel i j : Nat) (data : List α), a + 1 ≤ i → i ≤ j + 1 → j < b → b ≤ data.length →
      j + 1 ≤ i + fuel →
      (∀ m, a + 1 ≤ m → m < i → keyAt k data m ≤ keyAt k data a) →
      (∀ m, j < m → m < b → keyAt k data a < keyAt k data m) →
      Reach (a + 1) b data (partitionEqualLoop less a fuel i j data).1 ∧
      a + 1 ≤ (partitionEqualLoop less a fuel i j data).2 ∧
      (partitionEqualLoop less a fuel i j data).2 ≤ b ∧
      (∀ m, a + 1 ≤ m → m < (partitionEqualLoop less a fuel i j data).2 →
        keyAt k (partitionEqualLoop less a fuel i j data).1 m ≤
          keyAt k (partitionEqualLoop less a fuel i j data).1 a) ∧
      (∀ m, (partitionEqualLoop less a fuel i j data).2 ≤ m → m < b →
        keyAt k (partitionEqualLoop less a fuel i j data).1 a <
          keyAt k (partitionEqualLoop less a fuel i j data).1 m) := by
  intro fuel
  induction fuel with
  | zero =>
    intro i j data hi hij hjb hlen hf hlo hhi
    simp only [partitionEqualLoop]
    refine ⟨Reach.refl _ _ _, hi, by omega, hlo, ?_⟩
    intro m hm1 hm2
    exact hhi m (by omega) hm2
  | succ fuel ih =>
    intro i j data hi hij hjb hlen hf hlo hhi
    rw [partitionEqualLoop]
    have hu := scanUpEqual_spec less k hk data a j (by omega) (by omega) (j + 1) i hij
      (by omega)
    generalize scanUpEqual less data a j (j + 1) i = i' at hu ⊢
    obtain ⟨u1, u2, u3, u4⟩ := hu
    have hv := scanDownEqual_spec less k hk data a i' (by omega) (by omega) (j + 1) j
      (by omega) u2 (by omega)
    generalize scanDownEqual less data a i' (j + 1) j = j' at hv ⊢
    obtain ⟨v1, v2, v3, v4⟩ := hv
    by_cases hc : j' < i'
    · rw [if_pos hc]
      refine ⟨Reach.refl _ _ _, by omega, by omega, ?_, ?_⟩
      · intro m hm1 hm2
        by_cases hmi : m < i
        · exact hlo m hm1 hmi
        · exact u3 m (by omega) (by omega)
      · intro m hm1 hm2
        by_cases hmj : j < m
        · exact hhi m hmj hm2
        · exact v3 m (by omega) (by omega)
    · rw [if_neg hc]
      have hi'len : i' < data.length := by omega
      have hj'len : j' < data.length := by omega
      have hsw : ∀ m, keyAt k (swapAt data i' j') m =
          keyAt k data (if m = i' then j' else if m = j' then i' else m) :=
        fun m => keyAt_swapAt k data i' j' m hi'len hj'len
      have hia : keyAt k data a < keyAt k data i' := u4 (by omega)
      have hja : keyAt k data j' ≤ keyAt k data a := v4 (by omega)
      have hne : i' ≠ j' := by
        intro h
        rw [h] at hia
        omega
      have hkeya : keyAt k (swapAt data i' j') a = keyAt k data a := by
        rw [hsw a, if_neg (by omega), if_neg (by omega)]
      have hrs : Reach (a + 1) b data (swapAt data i' j') :=
        Reach.swap (a + 1) b data i' j' (by omega) (by omega) (by omega) (by omega) hlen
      obtain ⟨r1, r2, r3, r4, r5⟩ := ih (i' + 1) (j' - 1) (swapAt data i' j') (by omega)
        (by omega) (by omega) (by rw [swapAt_length]; exact hlen) (by omega)
        (by
          intro m hm1 hm2
          rw [hkeya, hsw m]
          by_cases hmi' : m = i'
          · rw [if_pos hmi']; exact hja
          · rw [if_neg hmi', if_neg (by omega)]
            by_cases hmi : m < i
            · exact hlo m hm1 hmi
            · exact u3 m (by omega) (by omega))
        (by
          intro m hm1 hm2
          rw [hkeya, hsw m]
          by_cases hmj' : m = j'
          · rw [if_neg (by omega), if_pos hmj']; exact hia
          · rw [if_neg (by omega), if_neg hmj']
            by_cases hmj : j < m
            · exact hhi m hmj hm2
            · exact v3 m (by omega) (by omega))
      exact ⟨hrs.trans r1, r2, r3, r4, r5⟩

/-- `partitionEqual_func` rearranges `[a, b)`: the keys before the returned
index are not above the pivot's and the keys from it on are above. -/
theorem partitionEqual_func_spec (less : α → α → Bool) (k : α → Int) (hk : OrdersBy less k)
    (data : List α) (a b pivot : Nat) (hap : a ≤ pivot) (hpb : pivot < b)
    (hlen : b ≤ data.length) :
    Reach a b data (partitionEqual_func less data a b pivot).1 ∧
    a + 1 ≤ (partitionEqual_func less data a b pivot).2 ∧
    (partitionEqual_func less data a b pivot).2 ≤ b ∧
    (∀ m, a ≤ m → m < (partitionEqual_func less data a b pivot).2 →
      keyAt k (partitionEqual_func less data a b pivot).1 m ≤ keyAt k data pivot) ∧
    (∀ m, (partitionEqual_func less data a b pivot).2 ≤ m → m < b →
      keyAt k data pivot < keyAt k (partitionEqual_func less data a b pivot).1 m) := by
  unfold partitionEqual_func
  dsimp only
  have hr1 : Reach a b data (swapAt data a pivot) :=
    Reach.swap a b data a pivot (le_refl _) (by omega) hap hpb hlen
  have hkey : keyAt k (swapAt data a pivot) a = keyAt k data pivot := by
    rw [keyAt_swapAt k data a pivot a (by omega) (by omega), if_pos rfl]
  have hlen1 : b ≤ (swapAt data a pivot).length := by rw [swapAt_length]; exact hlen
  generalize swapAt data a pivot = d1 at hr1 hlen1 hkey ⊢
  obtain ⟨r1, r2, r3, r4, r5⟩ := partitionEqualLoop_spec less k hk a b (b - a + 1) (a + 1)
    (b - 1) d1 (le_refl _) (by omega) (by omega) hlen1 (by omega)
    (fun m hm1 hm2 => by omega) (fun m hm1 hm2 => by omega)
  generalize partitionEqualLoop less a (b - a + 1) (a + 1) (b - 1) d1 = r at r1 r2 r3 r4 r5 ⊢
  have hkeya : keyAt k r.1 a = keyAt k data pivot := by
    rw [r1.keyAt_out k a (by omega), hkey]
  refine ⟨hr1.trans (r1.mono (by omega) (le_refl _)), r2, r3, ?_, ?_⟩
  · intro m hm1 hm2
    by_cases hma : m = a
    · rw [hma, hkeya]
    · rw [← hkeya]; exact r4 m (by omega) hm2
  · intro m hm1 hm2
    rw [← hkeya]; exact r5 m hm1 hm2


theorem reverseLoop_reach (a b : Nat) :
    ∀ (fuel i j : Nat) (data : List α), a ≤ i → j < b → b ≤ data.length →
      Reach a b data (reverseLoop fuel i j data) := by
  intro fuel
  induction fuel with
  | zero => intro i j data _ _ _; exact Reach.refl _ _ _
  | succ fuel ih =>
    intro i j data hi hj hlen
    rw [reverseLoop]
    by_cases hc : i < j
    · rw [if_pos hc]
      exact (Reach.swap a b data i j hi (by omega) (by omega) hj hlen).trans
        (ih (i + 1) (j - 1) _ (by omega) (by omega) (by rw [swapAt_length]; exact hlen))
    · rw [if_neg hc]; exact Reach.refl _ _ _

theorem reverseRange_func_reach (data : List α) (a b : Nat) (hab : a < b)
    (hlen : b ≤ data.length) : Reach a b data (reverseRange_func data a b) := by
  unfold reverseRange_func
  exact reverseLoop_reach a b (b - a) a (b - 1) data (le_refl _) (by omega) hlen

theorem bitsLen_zero (fuel : Nat) : bitsLen fuel 0 = 0 := by
  cases fuel <;> simp [bitsLen]

theorem two_pow_bitsLen_le : ∀ (fuel n : Nat), n ≤ fuel → 1 ≤ n → 2 ^ bitsLen fuel n ≤ 2 * n := by
  intro fuel
  induction fuel with
  | zero => intro n h1 h2; omega
  | succ fuel ih =>
    intro n h1 h2
    rw [bitsLen, if_neg (by omega)]
    by_cases h : n / 2 = 0
    · rw [h, bitsLen_zero]
      simp
      omega
    · have := ih (n / 2) (by omega) (by omega)
      rw [Nat.pow_add, Nat.pow_one]
      omega

theorem breakPatternsLoop_reach (a b length modulus idx : Nat) (hl : b = a + length)
    (hlpos : 1 ≤ length) (hmod : modulus ≤ 2 * length) (hidx : 1 ≤ idx) :
    ∀ (n i random : Nat) (data : List α), a + 1 ≤ idx + i → idx + i + n ≤ b + 1 →
      b ≤ data.length → Reach a b data (breakPatternsLoop a length modulus idx n i random data) := by
  intro n
  induction n with
  | zero => intro i random data _ _ _; exact Reach.refl _ _ _
  | succ n ih =>
    intro i random data h1 h2 hlen
    rw [breakPatternsLoop]
    have hand : xorshiftNext random &&& (modulus - 1) ≤ modulus - 1 := Nat.and_le_right
    have hother : (if length ≤ xorshiftNext random &&& (modulus - 1) then
        (xorshiftNext random &&& (modulus - 1)) - length
        else xorshiftNext random &&& (modulus - 1)) < length := by
      split_ifs <;> omega
    generalize (if length ≤ xorshiftNext random &&& (modulus - 1) then
        (xorshiftNext random &&& (modulus - 1)) - length
        else xorshiftNext random &&& (modulus - 1)) = other at hother ⊢
    exact (Reach.swap a b data (idx - 1 + i) (a + other) (by omega) (by omega) (by omega)
      (by omega) hlen).trans
      (ih (i + 1) _ _ (by omega) (by omega) (by rw [swapAt_length]; exact hlen))

theorem breakPatterns_func_reach (data : List α) (a b : Nat) (hlen : b ≤ data.length) :
    Reach a b data (breakPatterns_func data a b) := by
  unfold breakPatterns_func
  dsimp only
  by_cases h8 : 8 ≤ b - a
  · rw [if_pos h8]
    have hmod := two_pow_bitsLen_le (b - a) (b - a) (le_refl _) (by omega)
    exact breakPatternsLoop_reach a b (b - a) _ _ (by omega) (by omega) hmod (by omega) 3 0 (b - a) data
      (by omega) (by omega) hlen
  · rw [if_neg h8]; exact Reach.refl _ _ _

theorem order2_func_mem (less : α → α → Bool) (data : List α) (a b swaps : Nat) :
    ((order2_func less data a b swaps).1 = a ∧ (order2_func less data a b swaps).2.1 = b) ∨
    ((order2_func less data a b swaps).1 = b ∧ (order2_func less data a b swaps).2.1 = a) := by
  unfold order2_func
  split_ifs
  · right; exact ⟨rfl, rfl⟩
  · left; exact ⟨rfl, rfl⟩

theorem median_func_mem (less : α → α → Bool) (data : List α) (a b c swaps : Nat) :
    (median_func less data a b c swaps).1 = a ∨ (median_func less data a b c swaps).1 = b ∨
    (median_func less data a b c swaps).1 = c := by
  unfold median_func
  dsimp only
  have h1 := order2_func_mem less data a b swaps
  generalize order2_func less data a b swaps = r1 at h1 ⊢
  have h2 := order2_func_mem less data r1.2.1 c r1.2.2
  generalize order2_func less data r1.2.1 c r1.2.2 = r2 at h2 ⊢
  have h3 := order2_func_mem less data r1.1 r2.1 r2.2.2
  generalize order2_func less data r1.1 r2.1 r2.2.2 = r3 at h3 ⊢
  rcases h1 with ⟨e1, e2⟩ | ⟨e1, e2⟩ <;> rcases h2 with ⟨f1, f2⟩ | ⟨f1, f2⟩ <;>
    rcases h3 with ⟨g1, g2⟩ | ⟨g1, g2⟩ <;> simp_all

theorem choosePivot_func_range (less : α → α → Bool) (data : List α) (a b : Nat)
    (h8 : 8 ≤ b - a) :
    a ≤ (choosePivot_func less data a b).1 ∧ (choosePivot_func less data a b).1 < b := by
  have hfst : ∀ (r : Nat × Nat), (if r.2 = 0 then (r.1, sortedHint.increasingHint)
      else if r.2 = 12 then (r.1, sortedHint.decreasingHint)
      else (r.1, sortedHint.unknownHint)).1 = r.1 := by
    intro r; split_ifs <;> rfl
  unfold choosePivot_func
  dsimp only
  rw [hfst, if_pos h8]
  by_cases h50 : 50 ≤ b - a
  · rw [if_pos h50]
    unfold medianAdjacent_func
    have hi := median_func_mem less data (a + (b - a) / 4 * 1 - 1) (a + (b - a) / 4 * 1)
      (a + (b - a) / 4 * 1 + 1) 0
    generalize median_func less data (a + (b - a) / 4 * 1 - 1) (a + (b - a) / 4 * 1)
      (a + (b - a) / 4 * 1 + 1) 0 = ri at hi ⊢
    have hj := median_func_mem less data (a + (b - a) / 4 * 2 - 1) (a + (b - a) / 4 * 2)
      (a + (b - a) / 4 * 2 + 1) ri.2
    generalize median_func less data (a + (b - a) / 4 * 2 - 1) (a + (b - a) / 4 * 2)
      (a + (b - a) / 4 * 2 + 1) ri.2 = rj at hj ⊢
    have hk := median_func_mem less data (a + (b - a) / 4 * 3 - 1) (a + (b - a) / 4 * 3)
      (a + (b - a) / 4 * 3 + 1) rj.2
    generalize median_func less data (a + (b - a) / 4 * 3 - 1) (a + (b - a) / 4 * 3)
      (a + (b - a) / 4 * 3 + 1) rj.2 = rk at hk ⊢
    have hm := median_func_mem less data ri.1 rj.1 rk.1 rk.2
    generalize median_func less data ri.1 rj.1 rk.1 rk.2 = r at hm ⊢
    omega
  · rw [if_neg h50]
    have hm := median_func_mem less data (a + (b - a) / 4 * 1) (a + (b - a) / 4 * 2)
      (a + (b - a) / 4 * 3) 0
    generalize median_func less data (a + (b - a) / 4 * 1) (a + (b - a) / 4 * 2)
      (a + (b - a) / 4 * 3) 0 = r at hm ⊢
    omega


theorem LowerBound.reach {k : α → Int} {d d' : List α} {a b : Nat} (h : LowerBound k d a b)
    (hr : Reach a b d d') : LowerBound k d' a b := by
  rcases h with h | h
  · exact Or.inl h
  · by_cases ha : a = 0
    · exact Or.inl ha
    · right
      intro m hm1 hm2
      obtain ⟨m', h1, h2, e⟩ := hr.keyAt_inn k m hm1 hm2
      rw [e, hr.keyAt_out k (a - 1) (by omega)]
      exact h m' h1 h2

theorem SortedRange.reach_out {k : α → Int} {d d' : List α} {a i lo hi : Nat}
    (h : SortedRange k d a i) (hr : Reach lo hi d d') (hdis : i ≤ lo ∨ hi ≤ a) :
    SortedRange k d' a i := by
  intro p q hp hpq hq
  rw [hr.keyAt_out k p (by omega), hr.keyAt_out k q (by omega)]
  exact h p q hp hpq hq

theorem scanSorted_spec (less : α → α → Bool) (k : α → Int) (hk : OrdersBy less k)
    (data : List α) (a b : Nat) (hlen : b ≤ data.length) :
    ∀ (fuel i : Nat), a + 1 ≤ i → i ≤ b → b ≤ i + fuel → SortedRange k data a i →
      i ≤ scanSorted less data b fuel i ∧ scanSorted less data b fuel i ≤ b ∧
      SortedRange k data a (scanSorted less data b fuel i) ∧
      (scanSorted less data b fuel i < b →
        keyAt k data (scanSorted less data b fuel i) <
          keyAt k data (scanSorted less data b fuel i - 1)) := by
  intro fuel
  induction fuel with
  | zero =>
    intro i h1 h2 h3 hs
    simp only [scanSorted]
    exact ⟨le_refl _, h2, hs, fun h => by omega⟩
  | succ fuel ih =>
    intro i h1 h2 h3 hs
    rw [scanSorted]
    by_cases hc : i < b ∧ lessAt less data i (i - 1) = false
    · rw [if_pos hc]
      obtain ⟨hib, hless⟩ := hc
      have hle := (lessAt_false_iff less k hk data i (i - 1) (by omega) (by omega)).1 hless
      have hs' : SortedRange k data a (i + 1) := by
        intro p q hp hpq hq
        by_cases hqi : q = i
        · by_cases hpi : p = i
          · rw [hpi, hqi]
          · rw [hqi]
            exact le_trans (hs p (i - 1) hp (by omega) (by omega)) hle
        · exact hs p q hp hpq (by omega)
      obtain ⟨r1, r2, r3, r4⟩ := ih (i + 1) (by omega) (by omega) (by omega) hs'
      exact ⟨by omega, r2, r3, r4⟩
    · rw [if_neg hc]
      refine ⟨le_refl _, h2, hs, ?_⟩
      intro hib
      have : lessAt less data i (i - 1) = true := by
        cases hl : lessAt less data i (i - 1) with
        | true => rfl
        | false => exact absurd ⟨hib, hl⟩ hc
      exact (lessAt_true_iff less k hk data i (i - 1) (by omega) (by omega)).1 this

/-- Below the lower bound the left shift of `partialInsertionSort_func` stops
where the inner loop of the insertion sort on `[a, b)` stops. -/
theorem shiftLeft_eq_insertionInner (less : α → α → Bool) (k : α → Int) (hk : OrdersBy less k)
    (a b : Nat) :
    ∀ (j : Nat) (data : List α), a ≤ j → j < b → b ≤ data.length → LowerBound k data a b →
      shiftLeft less j data = insertionInner less a j data := by
  intro j
  induction j with
  | zero => intro data _ _ _ _; rfl
  | succ j ih =>
    intro data haj hjb hlen hB
    rw [shiftLeft, insertionInner]
    by_cases hless : lessAt less data (j + 1) j = true
    · have hlt := (lessAt_true_iff less k hk data (j + 1) j (by omega) (by omega)).1 hless
      have haj' : a < j + 1 := by
        by_contra hcon
        have ha : a = j + 1 := by omega
        rcases hB with h0 | hB
        · omega
        · have := hB (j + 1) (by omega) hjb
          rw [ha] at this
          simp only [Nat.add_sub_cancel] at this
          omega
      rw [if_pos hless, if_pos ⟨haj', hless⟩]
      exact ih _ (by omega) (by omega) (by rw [swapAt_length]; exact hlen)
        (hB.reach (Reach.swap a b data (j + 1) j (by omega) hjb (by omega) (by omega) hlen))
    · rw [if_neg hless, if_neg (fun h => hless h.2)]

theorem shiftRight_reach (less : α → α → Bool) (lo b : Nat) :
    ∀ (fuel j : Nat) (data : List α), lo + 1 ≤ j → b ≤ data.length →
      Reach lo b data (shiftRight less b fuel j data) := by
  intro fuel
  induction fuel with
  | zero => intro j data _ _; exact Reach.refl _ _ _
  | succ fuel ih =>
    intro j data hj hlen
    rw [shiftRight]
    by_cases hjb : j < b
    · rw [if_pos hjb]
      by_cases hless : lessAt less data j (j - 1) = true
      · rw [if_pos hless]
        exact (Reach.swap lo b data j (j - 1) (by omega) hjb (by omega) (by omega) hlen).trans
          (ih (j + 1) _ (by omega) (by rw [swapAt_length]; exact hlen))
      · rw [if_neg hless]; exact Reach.refl _ _ _
    · rw [if_neg hjb]; exact Reach.refl _ _ _

theorem partialInsertionLoop_spec (less : α → α → Bool) (k : α → Int) (hk : OrdersBy less k)
    (a b : Nat) :
    ∀ (steps i : Nat) (data : List α), a + 1 ≤ i → i ≤ b → b ≤ data.length →
      SortedRange k data a i → LowerBound k data a b →
      Reach a b data (partialInsertionLoop less a b steps i data).1 ∧
      ((partialInsertionLoop less a b steps i data).2 = true →
        SortedRange k (partialInsertionLoop less a b steps i data).1 a b) := by
  intro steps
  induction steps with
  | zero =>
    intro i data _ _ _ _ _
    simp only [partialInsertionLoop]
    exact ⟨Reach.refl _ _ _, fun h => by cases h⟩
  | succ steps ih =>
    intro i data hai hib hlen hs hB
    rw [partialInsertionLoop]
    dsimp only
    have hu := scanSorted_spec less k hk data a b hlen b i hai hib (by omega) hs
    generalize scanSorted less data b b i = i' at hu ⊢
    obtain ⟨u1, u2, u3, u4⟩ := hu
    by_cases hend : i' = b
    · rw [if_pos hend]
      exact ⟨Reach.refl _ _ _, fun _ => hend ▸ u3⟩
    · rw [if_neg hend]
      by_cases hshort : b - a < 50
      · rw [if_pos hshort]
        exact ⟨Reach.refl _ _ _, fun h => by cases h⟩
      · rw [if_neg hshort]
        have hlt : keyAt k data i' < keyAt k data (i' - 1) := u4 (by omega)
        -- the swap of the out-of-order pair
        have hr1 : Reach a b data (swapAt data i' (i' - 1)) :=
          Reach.swap a b data i' (i' - 1) (by omega) (by omega) (by omega) (by omega) hlen
        have hsw : ∀ m, keyAt k (swapAt data i' (i' - 1)) m =
            keyAt k data (if m = i' then i' - 1 else if m = i' - 1 then i' else m) :=
          fun m => keyAt_swapAt k data i' (i' - 1) m (by omega) (by omega)
        have hlen1 : b ≤ (swapAt data i' (i' - 1)).length := by rw [swapAt_length]; exact hlen
        have hB1 := hB.reach hr1
        have hs1 : SortedRange k (swapAt data i' (i' - 1)) a (i' - 1) := by
          intro p q hp hpq hq
          rw [hsw p, hsw q, if_neg (by omega), if_neg (by omega), if_neg (by omega),
            if_neg (by omega)]
          exact u3 p q hp hpq (by omega)
        generalize swapAt data i' (i' - 1) = d1 at hr1 hlen1 hB1 hs1 ⊢
        -- the left shift
        have hleft : Reach a b d1 (if 2 ≤ i' - a then shiftLeft less (i' - 1) d1 else d1) ∧
            SortedRange k (if 2 ≤ i' - a then shiftLeft less (i' - 1) d1 else d1) a i' := by
          by_cases h2 : 2 ≤ i' - a
          · rw [if_pos h2, shiftLeft_eq_insertionInner less k hk a b (i' - 1) d1 (by omega)
              (by omega) hlen1 hB1]
            have hI : InsertInv k d1 a (i' - 1) (i' - 1) := by
              constructor
              · intro p q hp hpq hq _ hqi
                exact hs1 p q hp hpq (by omega)
              · intro q h1 h2; omega
            obtain ⟨r1, r2⟩ := insertionInner_spec less k hk a (i' - 1) (i' - 1) d1 (by omega)
              (le_refl _) (by omega) hI
            have e : i' - 1 + 1 = i' := by omega
            rw [e] at r1 r2
            exact ⟨r1.mono (le_refl _) (by omega), r2⟩
          · rw [if_neg h2]
            refine ⟨Reach.refl _ _ _, ?_⟩
            intro p q hp hpq hq
            have : p = q := by omega
            rw [this]
        obtain ⟨hr2, hs2⟩ := hleft
        have hlen2 : b ≤ (if 2 ≤ i' - a then shiftLeft less (i' - 1) d1 else d1).length := by
          rw [hr2.len]; exact hlen1
        have hB2 := hB1.reach hr2
        generalize (if 2 ≤ i' - a then shiftLeft less (i' - 1) d1 else d1) = d2
          at hr2 hs2 hlen2 hB2 ⊢
        -- the right shift
        have hright : Reach i' b d2 (if 2 ≤ b - i' then shiftRight less b b (i' + 1) d2 else d2) := by
          by_cases h2 : 2 ≤ b - i'
          · rw [if_pos h2]
            exact shiftRight_reach less i' b b (i' + 1) d2 (le_refl _) hlen2
          · rw [if_neg h2]; exact Reach.refl _ _ _
        have hs3 := hs2.reach_out hright (Or.inl (le_refl _))
        have hr3 : Reach a b d2 (if 2 ≤ b - i' then shiftRight less b b (i' + 1) d2 else d2) :=
          hright.mono (by omega) (le_refl _)
        have hlen3 : b ≤ (if 2 ≤ b - i' then shiftRight less b b (i' + 1) d2 else d2).length := by
          rw [hr3.len]; exact hlen2
        have hB3 := hB2.reach hr3
        generalize (if 2 ≤ b - i' then shiftRight less b b (i' + 1) d2 else d2) = d3
          at hr3 hs3 hlen3 hB3 ⊢
        obtain ⟨r1, r2⟩ := ih i' d3 (by omega) u2 hlen3 hs3 hB3
        exact ⟨((hr1.trans hr2).trans hr3).trans r1, r2⟩

theorem partialInsertionSort_func_spec (less : α → α → Bool) (k : α → Int)
    (hk : OrdersBy less k) (data : List α) (a b : Nat) (hab : a < b) (hlen : b ≤ data.length)
    (hB : LowerBound k data a b) :
    Reach a b data (partialInsertionSort_func less data a b).1 ∧
    ((partialInsertionSort_func less data a b).2 = true →
      SortedRange k (partialInsertionSort_func less data a b).1 a b) := by
  unfold partialInsertionSort_func
  refine partialInsertionLoop_spec less k hk a b 5 (a + 1) data (le_refl _) (by omega) hlen ?_ hB
  intro p q hp hpq hq
  have : p = q := by omega
  rw [this]


theorem keyAt_swapAt_offset (k : α → Int) (data : List α) (first r c x : Nat)
    (hr : first + r < data.length) (hc : first + c < data.length) :
    keyAt k (swapAt data (first + r) (first + c)) (first + x) =
      keyAt k data (first + (if x = r then c else if x = c then r else x)) := by
  rw [keyAt_swapAt k data (first + r) (first + c) (first + x) hr hc]
  by_cases h1 : x = r
  · rw [if_pos (by omega), if_pos h1]
  · by_cases h2 : x = c
    · rw [if_neg (by omega), if_pos (by omega), if_neg h1, if_pos h2]
    · rw [if_neg (by omega), if_neg (by omega), if_neg h1, if_neg h2]

theorem siftDown_func_spec (less : α → α → Bool) (k : α → Int) (hk : OrdersBy less k)
    (first lo hi : Nat) :
    ∀ (fuel r : Nat) (data : List α), lo ≤ r → hi ≤ r + fuel → first + hi ≤ data.length →
      HeapExcept k data first lo hi r → GrandOk k data first lo hi r →
      Reach (first + lo) (first + hi) data (siftDown_func less hi first fuel r data) ∧
      HeapFrom k (siftDown_func less hi first fuel r data) first lo hi := by
  intro fuel
  induction fuel with
  | zero =>
    intro r data hlo hf hlen hE hG
    simp only [siftDown_func]
    refine ⟨Reach.refl _ _ _, ?_⟩
    intro c hc1 hc2 hp
    exact hE c hc1 hc2 hp (by omega)
  | succ fuel ih =>
    intro r data hlo hf hlen hE hG
    rw [siftDown_func]
    dsimp only
    by_cases hch : hi ≤ 2 * r + 1
    · rw [if_pos hch]
      refine ⟨Reach.refl _ _ _, ?_⟩
      intro c hc1 hc2 hp
      exact hE c hc1 hc2 hp (by omega)
    · rw [if_neg hch]
      have hchild : ∃ c, (if 2 * r + 1 + 1 < hi ∧
            lessAt less data (first + (2 * r + 1)) (first + (2 * r + 1) + 1) = true
          then 2 * r + 1 + 1 else 2 * r + 1) = c ∧ (c = 2 * r + 1 ∨ c = 2 * r + 2) ∧ c < hi ∧
          keyAt k data (first + (2 * r + 1)) ≤ keyAt k data (first + c) ∧
          (2 * r + 2 < hi → keyAt k data (first + (2 * r + 2)) ≤ keyAt k data (first + c)) := by
        by_cases hcc : 2 * r + 1 + 1 < hi ∧
            lessAt less data (first + (2 * r + 1)) (first + (2 * r + 1) + 1) = true
        · rw [if_pos hcc]
          have hlt := (lessAt_true_iff less k hk data (first + (2 * r + 1))
            (first + (2 * r + 1) + 1) (by omega) (by omega)).1 hcc.2
          refine ⟨_, rfl, Or.inr rfl, hcc.1, ?_, fun _ => le_refl _⟩
          exact le_of_lt hlt
        · rw [if_neg hcc]
          refine ⟨_, rfl, Or.inl rfl, by omega, le_refl _, ?_⟩
          intro h2
          have : lessAt less data (first + (2 * r + 1)) (first + (2 * r + 1) + 1) = false := by
            cases hl : lessAt less data (first + (2 * r + 1)) (first + (2 * r + 1) + 1) with
            | false => rfl
            | true => exact absurd ⟨by omega, hl⟩ hcc
          exact (lessAt_false_iff less k hk data (first + (2 * r + 1))
            (first + (2 * r + 1) + 1) (by omega) (by omega)).1 this
      obtain ⟨c, hceq, hc12, hchi, hk1, hk2⟩ := hchild
      rw [hceq]
      by_cases hless : lessAt less data (first + r) (first + c) = true
      · rw [if_pos hless]
        have hlt := (lessAt_true_iff less k hk data (first + r) (first + c) (by omega)
          (by omega)).1 hless
        have hsw : ∀ x, keyAt k (swapAt data (first + r) (first + c)) (first + x) =
            keyAt k data (first + (if x = r then c else if x = c then r else x)) :=
          fun x => keyAt_swapAt_offset k data first r c x (by omega) (by omega)
        have hE' : HeapExcept k (swapAt data (first + r) (first + c)) first lo hi c := by
          intro x hx1 hx2 hp hpc
          rw [hsw x, hsw ((x - 1) / 2)]
          by_cases hpr : (x - 1) / 2 = r
          · -- the node is a child of `r`, and not `c` itself
            rw [if_pos hpr]
            by_cases hxc : x = c
            · rw [if_neg (by omega), if_pos hxc]; exact le_of_lt hlt
            · rw [if_neg (by omega), if_neg hxc]
              rcases hc12 with h | h
              · have hx : x = 2 * r + 2 := by omega
                rw [hx]; exact hk2 (by omega)
              · have hx : x = 2 * r + 1 := by omega
                rw [hx]; exact hk1
          · rw [if_neg hpr, if_neg hpc]
            by_cases hxr : x = r
            · rw [if_pos hxr]
              have := hG (by omega) (by rw [← hxr]; exact hp) c (by omega) hchi (by omega)
              rw [← hxr] at this
              exact this
            · rw [if_neg hxr, if_neg (by omega)]
              exact hE x hx1 hx2 hp hpr
        have hG' : GrandOk k (swapAt data (first + r) (first + c)) first lo hi c := by
          intro _ _ x hx1 hx2 hp
          rw [hsw x, hsw ((c - 1) / 2)]
          have hpr : (c - 1) / 2 = r := by omega
          rw [if_neg (by omega), if_neg (by omega), if_pos hpr]
          have := hE x hx1 hx2 (by omega) (by omega)
          rw [hp] at this
          exact this
        obtain ⟨r1, r2⟩ := ih c (swapAt data (first + r) (first + c)) (by omega) (by omega)
          (by rw [swapAt_length]; exact hlen) hE' hG'
        exact ⟨(Reach.swap (first + lo) (first + hi) data (first + r) (first + c) (by omega)
          (by omega) (by omega) (by omega) hlen).trans r1, r2⟩
      · rw [if_neg hless]
        have hle : keyAt k data (first + c) ≤ keyAt k data (first + r) := by
          have : lessAt less data (first + r) (first + c) = false := by
            cases hl : lessAt less data (first + r) (first + c) with
            | false => rfl
            | true => exact absurd hl hless
          exact (lessAt_false_iff less k hk data (first + r) (first + c) (by omega)
            (by omega)).1 this
        refine ⟨Reach.refl _ _ _, ?_⟩
        intro x hx1 hx2 hp
        by_cases hpr : (x - 1) / 2 = r
        · rw [hpr]
          have hx : x = 2 * r + 1 ∨ x = 2 * r + 2 := by omega
          rcases hx with hx | hx
          · rw [hx]; exact le_trans hk1 hle
          · rw [hx]; exact le_trans (hk2 (by omega)) hle
        · exact hE x hx1 hx2 hp hpr


theorem heapBuild_spec (less : α → α → Bool) (k : α → Int) (hk : OrdersBy less k)
    (first hi : Nat) :
    ∀ (i : Nat) (data : List α), first + hi ≤ data.length → HeapFrom k data first (i + 1) hi →
      Reach first (first + hi) data (heapBuild less hi first i data) ∧
      HeapFrom k (heapBuild less hi first i data) first 0 hi := by
  intro i
  induction i with
  | zero =>
    intro data hlen hH
    rw [heapBuild]
    have hE : HeapExcept k data first 0 hi 0 := by
      intro c hc1 hc2 _ hp
      exact hH c hc1 hc2 (by omega)
    have hG : GrandOk k data first 0 hi 0 := by
      intro h; omega
    exact siftDown_func_spec less k hk first 0 hi hi 0 data (le_refl _) (by omega) hlen hE hG
  | succ i ih =>
    intro data hlen hH
    rw [heapBuild]
    have hE : HeapExcept k data first (i + 1) hi (i + 1) := by
      intro c hc1 hc2 hp hne
      exact hH c hc1 hc2 (by omega)
    have hG : GrandOk k data first (i + 1) hi (i + 1) := by
      intro _ h; omega
    obtain ⟨r1, r2⟩ := siftDown_func_spec less k hk first (i + 1) hi hi (i + 1) data (le_refl _)
      (by omega) hlen hE hG
    obtain ⟨r3, r4⟩ := ih _ (by rw [r1.len]; exact hlen) r2
    exact ⟨(r1.mono (by omega) (le_refl _)).trans r3, r4⟩

/-- The root of a heap has the greatest key. -/
theorem heap_root_max (k : α → Int) (data : List α) (first n : Nat)
    (hH : HeapFrom k data first 0 n) :
    ∀ m, m < n → keyAt k data (first + m) ≤ keyAt k data (first + 0) := by
  intro m
  induction m using Nat.strong_induction_on with
  | _ m ih =>
    intro hm
    by_cases h0 : m = 0
    · rw [h0]
    · exact le_trans (hH m (by omega) hm (Nat.zero_le _)) (ih ((m - 1) / 2) (by omega) (by omega))

theorem heapPop_spec (less : α → α → Bool) (k : α → Int) (hk : OrdersBy less k)
    (first hi : Nat) :
    ∀ (i : Nat) (data : List α), i < hi → first + hi ≤ data.length →
      HeapFrom k data first 0 (i + 1) →
      SortedRange k data (first + i + 1) (first + hi) →
      (∀ m q, m ≤ i → i < q → q < hi → keyAt k data (first + m) ≤ keyAt k data (first + q)) →
      Reach first (first + hi) data (heapPop less first i data) ∧
      SortedRange k (heapPop less first i data) first (first + hi) := by
  intro i
  induction i with
  | zero =>
    intro data hi0 hlen _ hS hX
    rw [heapPop]
    simp only [siftDown_func]
    have hsw : ∀ m, keyAt k (swapAt data first first) m = keyAt k data m := by
      intro m
      rw [keyAt_swapAt k data first first m (by omega) (by omega)]
      by_cases h : m = first
      · rw [if_pos h, h]
      · rw [if_neg h, if_neg h]
    refine ⟨Reach.swap first (first + hi) data first first (le_refl _) (by omega) (le_refl _)
      (by omega) hlen, ?_⟩
    intro p q hp hpq hq
    rw [hsw p, hsw q]
    by_cases hp0 : p = first
    · by_cases hq0 : q = first
      · rw [hp0, hq0]
      · have := hX 0 (q - first) (le_refl _) (by omega) (by omega)
        have e : first + (q - first) = q := by omega
        rw [e] at this
        rw [hp0]
        exact this
    · exact hS p q (by omega) hpq hq
  | succ i ih =>
    intro data hi0 hlen hH hS hX
    rw [heapPop]
    have hsw : ∀ x, keyAt k (swapAt data first (first + (i + 1))) (first + x) =
        keyAt k data (first + (if x = 0 then i + 1 else if x = i + 1 then 0 else x)) := by
      intro x
      have := keyAt_swapAt_offset k data first 0 (i + 1) x (by omega) (by omega)
      simpa using this
    have hr1 : Reach first (first + hi) data (swapAt data first (first + (i + 1))) :=
      Reach.swap first (first + hi) data first (first + (i + 1)) (le_refl _) (by omega)
        (by omega) (by omega) hlen
    have hlen1 : first + hi ≤ (swapAt data first (first + (i + 1))).length := by
      rw [swapAt_length]; exact hlen
    have hroot := heap_root_max k data first (i + 1 + 1) hH
    have hE : HeapExcept k (swapAt data first (first + (i + 1))) first 0 (i + 1) 0 := by
      intro c hc1 hc2 _ hp
      rw [hsw c, hsw ((c - 1) / 2), if_neg (by omega), if_neg (by omega), if_neg hp,
        if_neg (by omega)]
      exact hH c hc1 (by omega) (Nat.zero_le _)
    have hG : GrandOk k (swapAt data first (first + (i + 1))) first 0 (i + 1) 0 := by
      intro h; omega
    generalize swapAt data first (first + (i + 1)) = d1 at hsw hr1 hlen1 hE hG ⊢
    obtain ⟨r1, r2⟩ := siftDown_func_spec less k hk first 0 (i + 1) (i + 1) 0 d1 (le_refl _)
      (by omega) (by omega) hE hG
    have hlen2 : first + hi ≤ (siftDown_func less (i + 1) first (i + 1) 0 d1).length := by
      rw [r1.len]; exact hlen1
    have hout : ∀ q, i + 1 ≤ q →
        keyAt k (siftDown_func less (i + 1) first (i + 1) 0 d1) (first + q) =
          keyAt k data (first + (if q = i + 1 then 0 else q)) := by
      intro q hq
      rw [r1.keyAt_out k (first + q) (by omega), hsw q, if_neg (by omega)]
    have hinn : ∀ m, m ≤ i → ∃ m', m' ≤ i + 1 ∧
        keyAt k (siftDown_func less (i + 1) first (i + 1) 0 d1) (first + m) =
          keyAt k data (first + m') := by
      intro m hm
      obtain ⟨x, hx1, hx2, e⟩ := r1.keyAt_inn k (first + m) (by omega) (by omega)
      have ex : x = first + (x - first) := by omega
      rw [ex, hsw (x - first)] at e
      exact ⟨_, by split_ifs <;> omega, e⟩
    generalize siftDown_func less (i + 1) first (i + 1) 0 d1 = d2 at r1 r2 hlen2 hout hinn ⊢
    have hS2 : SortedRange k d2 (first + i + 1) (first + hi) := by
      intro p q hp hpq hq
      have ep : p = first + (p - first) := by omega
      have eq : q = first + (q - first) := by omega
      rw [ep, eq, hout (p - first) (by omega), hout (q - first) (by omega)]
      by_cases hp1 : p - first = i + 1
      · rw [if_pos hp1]
        by_cases hq1 : q - first = i + 1
        · rw [if_pos hq1]
        · rw [if_neg hq1]
          exact hX 0 (q - first) (by omega) (by omega) (by omega)
      · rw [if_neg hp1, if_neg (by omega)]
        have := hS (first + (p - first)) (first + (q - first)) (by omega) (by omega) (by omega)
        exact this
    have hX2 : ∀ m q, m ≤ i → i < q → q < hi →
        keyAt k d2 (first + m) ≤ keyAt k d2 (first + q) := by
      intro m q hm hq1 hq2
      obtain ⟨m', hm', e⟩ := hinn m hm
      rw [e, hout q (by omega)]
      by_cases hq : q = i + 1
      · rw [if_pos hq]
        exact hroot m' (by omega)
      · rw [if_neg hq]
        exact hX m' q hm' (by omega) hq2
    obtain ⟨r3, r4⟩ := ih d2 (by omega) hlen2 r2 hS2 hX2
    exact ⟨(hr1.trans (r1.mono (by omega) (by omega))).trans r3, r4⟩

theorem heapSort_func_spec (less : α → α → Bool) (k : α → Int) (hk : OrdersBy less k)
    (data : List α) (a b : Nat) (hlen : b ≤ data.length) :
    Reach a b data (heapSort_func less data a b) ∧
    SortedRange k (heapSort_func less data a b) a b := by
  unfold heapSort_func
  dsimp only
  by_cases h0 : b - a = 0
  · rw [if_pos h0]
    exact ⟨Reach.refl _ _ _, fun i j hi hij hj => by omega⟩
  · rw [if_neg h0]
    have hb : a + (b - a) = b := by omega
    have hH0 : HeapFrom k data a ((b - a - 1) / 2 + 1) (b - a) := by
      intro c hc1 hc2 hp; omega
    obtain ⟨r1, r2⟩ := heapBuild_spec less k hk a (b - a) ((b - a - 1) / 2) data (by omega) hH0
    have hlen1 : a + (b - a) ≤ (heapBuild less (b - a) a ((b - a - 1) / 2) data).length := by
      rw [r1.len]; omega
    generalize heapBuild less (b - a) a ((b - a - 1) / 2) data = d1 at r1 r2 hlen1 ⊢
    have e1 : b - a - 1 + 1 = b - a := by omega
    obtain ⟨r3, r4⟩ := heapPop_spec less k hk a (b - a) (b - a - 1) d1 (by omega) hlen1
      (by rw [e1]; exact r2) (fun i j hi hij hj => by omega) (fun m q hm hq1 hq2 => by omega)
    rw [hb] at r1 r3 r4
    exact ⟨r1.trans r3, r4⟩


theorem LowerBound.mono_right {k : α → Int} {d : List α} {a b b' : Nat}
    (h : LowerBound k d a b) (hb : b' ≤ b) : LowerBound k d a b' := by
  rcases h with h | h
  · exact Or.inl h
  · exact Or.inr (fun m h1 h2 => h m h1 (by omega))

/-- Two rearrangements of disjoint index ranges, one after the other: each range
holds keys it held before, and the keys outside both are unchanged. -/
theorem two_reach_keys (k : α → Int) (d dA res : List α) (lo1 hi1 lo2 hi2 : Nat)
    (h1 : Reach lo1 hi1 d dA) (h2 : Reach lo2 hi2 dA res) (hdis : hi1 ≤ lo2 ∨ hi2 ≤ lo1) :
    (∀ m, lo1 ≤ m → m < hi1 → ∃ m', lo1 ≤ m' ∧ m' < hi1 ∧ keyAt k res m = keyAt k d m') ∧
    (∀ m, lo2 ≤ m → m < hi2 → ∃ m', lo2 ≤ m' ∧ m' < hi2 ∧ keyAt k res m = keyAt k d m') ∧
    (∀ m, (m < lo1 ∨ hi1 ≤ m) → (m < lo2 ∨ hi2 ≤ m) → keyAt k res m = keyAt k d m) := by
  refine ⟨?_, ?_, ?_⟩
  · intro m hm1 hm2
    obtain ⟨m', h1', h2', e⟩ := h1.keyAt_inn k m hm1 hm2
    exact ⟨m', h1', h2', by rw [h2.keyAt_out k m (by omega), e]⟩
  · intro m hm1 hm2
    obtain ⟨m', h1', h2', e⟩ := h2.keyAt_inn k m hm1 hm2
    exact ⟨m', h1', h2', by rw [e, h1.keyAt_out k m' (by omega)]⟩
  · intro m hm1 hm2
    rw [h2.keyAt_out k m hm2, h1.keyAt_out k m hm1]

/-- A slice partitioned around `mid` whose two sides have been sorted, each
within itself, is sorted. -/
theorem sorted_of_partitioned (k : α → Int) (d res : List α) (a mid b : Nat)
    (hlo : ∀ m, a ≤ m → m < mid → keyAt k d m < keyAt k d mid)
    (hhi : ∀ m, mid < m → m < b → keyAt k d mid ≤ keyAt k d m)
    (hL : ∀ m, a ≤ m → m < mid → ∃ m', a ≤ m' ∧ m' < mid ∧ keyAt k res m = keyAt k d m')
    (hR : ∀ m, mid + 1 ≤ m → m < b → ∃ m', mid + 1 ≤ m' ∧ m' < b ∧ keyAt k res m = keyAt k d m')
    (hM : keyAt k res mid = keyAt k d mid)
    (hsL : SortedRange k res a mid) (hsR : SortedRange k res (mid + 1) b) :
    SortedRange k res a b := by
  have hleft : ∀ m, a ≤ m → m < mid → keyAt k res m < keyAt k res mid := by
    intro m h1 h2
    obtain ⟨m', h1', h2', e⟩ := hL m h1 h2
    rw [e, hM]; exact hlo m' h1' h2'
  have hright : ∀ m, mid < m → m < b → keyAt k res mid ≤ keyAt k res m := by
    intro m h1 h2
    obtain ⟨m', h1', h2', e⟩ := hR m h1 h2
    rw [e, hM]; exact hhi m' (by omega) h2'
  intro p q hp hpq hq
  by_cases hpm : p < mid
  · by_cases hqm : q < mid
    · exact hsL p q hp hpq hqm
    · by_cases hqe : q = mid
      · rw [hqe]; exact le_of_lt (hleft p hp hpm)
      · exact le_trans (le_of_lt (hleft p hp hpm)) (hright q (by omega) hq)
  · by_cases hpe : p = mid
    · by_cases hqe : q = mid
      · rw [hpe, hqe]
      · rw [hpe]; exact hright q (by omega) hq
    · exact hsR p q (by omega) hpq hq

theorem pdqsort_func_spec (less : α → α → Bool) (k : α → Int) (hk : OrdersBy less k) :
    ∀ (fuel : Nat) (data : List α) (a b limit : Nat) (wasBalanced wasPartitioned : Bool),
      a ≤ b → b ≤ data.length → b - a < fuel → LowerBound k data a b →
      Reach a b data (pdqsort_func less fuel data a b limit wasBalanced wasPartitioned) ∧
      SortedRange k (pdqsort_func less fuel data a b limit wasBalanced wasPartitioned) a b := by
  intro fuel
  induction fuel with
  | zero => intro data a b limit wb wp _ _ h _; omega
  | succ fuel ih =>
    intro data a b limit wb wp hab hlen hf hB
    rw [pdqsort_func]
    dsimp only
    by_cases h12 : b - a ≤ 12
    · rw [if_pos h12]
      exact insertionSort_func_spec less k hk data a b hlen
    · rw [if_neg h12]
      by_cases hl0 : limit = 0
      · rw [if_pos hl0]
        exact heapSort_func_spec less k hk data a b hlen
      · rw [if_neg hl0]
        -- breaking patterns
        have hD1 : Reach a b data (if wb = true then data else breakPatterns_func data a b) := by
          split_ifs
          · exact Reach.refl _ _ _
          · exact breakPatterns_func_reach data a b hlen
        generalize (if wb = true then data else breakPatterns_func data a b) = D1 at hD1 ⊢
        generalize (if wb = true then limit else limit - 1) = limit'
        have hlen1 : b ≤ D1.length := by rw [hD1.len]; exact hlen
        -- the pivot
        have hph := choosePivot_func_range less D1 a b (by omega)
        generalize choosePivot_func less D1 a b = ph at hph ⊢
        have hD2 : Reach a b D1
            (if ph.2 = sortedHint.decreasingHint then reverseRange_func D1 a b else D1) := by
          split_ifs
          · exact reverseRange_func_reach D1 a b (by omega) hlen1
          · exact Reach.refl _ _ _
        generalize (if ph.2 = sortedHint.decreasingHint then reverseRange_func D1 a b else D1)
          = D2 at hD2 ⊢
        have hlen2 : b ≤ D2.length := by rw [hD2.len]; exact hlen1
        have hpv : a ≤ (if ph.2 = sortedHint.decreasingHint then b - 1 - (ph.1 - a) else ph.1) ∧
            (if ph.2 = sortedHint.decreasingHint then b - 1 - (ph.1 - a) else ph.1) < b := by
          split_ifs <;> omega
        generalize (if ph.2 = sortedHint.decreasingHint then b - 1 - (ph.1 - a) else ph.1)
          = pivot at hpv ⊢
        generalize (if ph.2 = sortedHint.decreasingHint then sortedHint.increasingHint else ph.2)
          = hint
        generalize (wb && wp && decide (hint = sortedHint.increasingHint)) = tp
        have hB2 : LowerBound k D2 a b := (hB.reach hD1).reach hD2
        -- the partial insertion sort
        have hpr : Reach a b D2
            (if tp = true then partialInsertionSort_func less D2 a b else (D2, false)).1 ∧
            ((if tp = true then partialInsertionSort_func less D2 a b else (D2, false)).2 = true →
              SortedRange k
                (if tp = true then partialInsertionSort_func less D2 a b else (D2, false)).1
                a b) := by
          split_ifs
          · exact partialInsertionSort_func_spec less k hk D2 a b (by omega) hlen2 hB2
          · exact ⟨Reach.refl _ _ _, fun h => by cases h⟩
        generalize (if tp = true then partialInsertionSort_func less D2 a b else (D2, false))
          = pr at hpr ⊢
        obtain ⟨hD3, hsorted⟩ := hpr
        have hR3 : Reach a b data pr.1 := (hD1.trans hD2).trans hD3
        by_cases hdone : pr.2 = true
        · rw [if_pos hdone]
          exact ⟨hR3, hsorted hdone⟩
        · rw [if_neg hdone]
          have hlen3 : b ≤ pr.1.length := by rw [hD3.len]; exact hlen2
          have hB3 : LowerBound k pr.1 a b := hB2.reach hD3
          generalize pr.1 = D3 at hD3 hR3 hlen3 hB3 ⊢
          by_cases heq : 0 < a ∧ lessAt less D3 (a - 1) pivot = false
          · -- many duplicates: partition into equal and greater
            rw [if_pos heq]
            obtain ⟨ha0, hless⟩ := heq
            have hpa : keyAt k D3 pivot ≤ keyAt k D3 (a - 1) :=
              (lessAt_false_iff less k hk D3 (a - 1) pivot (by omega) (by omega)).1 hless
            have hall : ∀ m, a ≤ m → m < b → keyAt k D3 (a - 1) ≤ keyAt k D3 m := by
              rcases hB3 with h | h
              · omega
              · exact h
            obtain ⟨e1, e2, e3, e4, e5⟩ := partitionEqual_func_spec less k hk D3 a b pivot hpv.1
              hpv.2 hlen3
            generalize partitionEqual_func less D3 a b pivot = pe at e1 e2 e3 e4 e5 ⊢
            have hlenE : b ≤ pe.1.length := by rw [e1.len]; exact hlen3
            have hge : ∀ m, a ≤ m → m < b → keyAt k D3 pivot ≤ keyAt k pe.1 m := by
              intro m h1 h2
              obtain ⟨m', h1', h2', e⟩ := e1.keyAt_inn k m h1 h2
              rw [e]; exact le_trans hpa (hall m' h1' h2')
            have hBE : LowerBound k pe.1 pe.2 b := by
              right
              intro m h1 h2
              exact le_trans (e4 (pe.2 - 1) (by omega) (by omega)) (le_of_lt (e5 m h1 h2))
            obtain ⟨r1, r2⟩ := ih pe.1 pe.2 b limit' wb wp e3 hlenE (by omega) hBE
            refine ⟨(hR3.trans e1).trans (r1.mono (by omega) (le_refl _)), ?_⟩
            intro p q hp hpq hq
            by_cases hpm : p < pe.2
            · rw [r1.keyAt_out k p (Or.inl hpm)]
              by_cases hqm : q < pe.2
              · rw [r1.keyAt_out k q (Or.inl hqm)]
                exact le_trans (e4 p hp hpm) (hge q (by omega) hq)
              · obtain ⟨q', h1', h2', e⟩ := r1.keyAt_inn k q (by omega) hq
                rw [e]
                exact le_trans (e4 p hp hpm) (le_of_lt (e5 q' h1' h2'))
            · exact r2 p q (by omega) hpq hq
          · rw [if_neg heq]
            obtain ⟨t1, t2, t3, t4, t5⟩ := partition_func_spec less k hk D3 a b pivot hpv.1 hpv.2
              hlen3
            generalize partition_func less D3 a b pivot = pt at t1 t2 t3 t4 t5 ⊢
            have hlenT : b ≤ pt.1.length := by rw [t1.len]; exact hlen3
            have hBT : LowerBound k pt.1 a b := hB3.reach t1
            have hBL : LowerBound k pt.1 a pt.2.1 := hBT.mono_right (by omega)
            have hBR : LowerBound k pt.1 (pt.2.1 + 1) b := by
              right
              intro m h1 h2
              simp only [Nat.add_sub_cancel]
              exact t5 m (by omega) h2
            by_cases hside : pt.2.1 - a < b - pt.2.1
            · rw [if_pos hside]
              obtain ⟨l1, l2⟩ := ih pt.1 a pt.2.1 limit' true true t2 (by omega) (by omega) hBL
              generalize pdqsort_func less fuel pt.1 a pt.2.1 limit' true true = dA at l1 l2 ⊢
              have hBR' : LowerBound k dA (pt.2.1 + 1) b := by
                right
                intro m h1 h2
                simp only [Nat.add_sub_cancel]
                rw [l1.keyAt_out k pt.2.1 (by omega), l1.keyAt_out k m (by omega)]
                exact t5 m (by omega) h2
              obtain ⟨q1, q2⟩ := ih dA (pt.2.1 + 1) b limit' (decide ((b - a) / 8 ≤ pt.2.1 - a))
                pt.2.2 (by omega) (by rw [l1.len]; exact hlenT) (by omega) hBR'
              obtain ⟨kL, kR, kO⟩ := two_reach_keys k pt.1 dA _ a pt.2.1 (pt.2.1 + 1) b l1 q1
                (Or.inl (by omega))
              refine ⟨(hR3.trans t1).trans ((l1.mono (le_refl _) (by omega)).trans
                (q1.mono (by omega) (le_refl _))), ?_⟩
              exact sorted_of_partitioned k pt.1 _ a pt.2.1 b t4 t5 kL kR
                (kO pt.2.1 (by omega) (by omega)) (l2.reach_out q1 (Or.inl (by omega))) q2
            · rw [if_neg hside]
              obtain ⟨q1, q2⟩ := ih pt.1 (pt.2.1 + 1) b limit' true true (by omega) hlenT
                (by omega) hBR
              generalize pdqsort_func less fuel pt.1 (pt.2.1 + 1) b limit' true true = dA
                at q1 q2 ⊢
              have hBL' : LowerBound k dA a pt.2.1 := by
                rcases hBL with h | h
                · exact Or.inl h
                · by_cases ha : a = 0
                  · exact Or.inl ha
                  · right
                    intro m h1 h2
                    rw [q1.keyAt_out k (a - 1) (by omega), q1.keyAt_out k m (by omega)]
                    exact h m h1 h2
              obtain ⟨l1, l2⟩ := ih dA a pt.2.1 limit' (decide ((b - a) / 8 ≤ b - pt.2.1))
                pt.2.2 t2 (by rw [q1.len]; omega) (by omega) hBL'
              obtain ⟨kR, kL, kO⟩ := two_reach_keys k pt.1 dA _ (pt.2.1 + 1) b a pt.2.1 q1 l1
                (Or.inr (by omega))
              refine ⟨(hR3.trans t1).trans ((q1.mono (by omega) (le_refl _)).trans
                (l1.mono (le_refl _) (by omega))), ?_⟩
              exact sorted_of_partitioned k pt.1 _ a pt.2.1 b t4 t5 kL kR
                (kO pt.2.1 (by omega) (by omega)) l2 (q2.reach_out l1 (Or.inr (by omega)))


/-- The model of `sort.Slice` returns a permutation of the slice in which no
element is `less` than an earlier one, for every comparison that orders by a
key. -/
theorem Slice_sorts (less : α → α → Bool) (k : α → Int) (hk : OrdersBy less k) (x : List α) :
    (Slice less x).Perm x ∧ (Slice less x).Pairwise (fun u v => less v u = false) := by
  unfold Slice
  dsimp only
  obtain ⟨hr, hs⟩ := pdqsort_func_spec less k hk (x.length + 1) x 0 x.length
    (bitsLen x.length x.length) true true (Nat.zero_le _) (le_refl _) (by omega) (Or.inl rfl)
  refine ⟨hr.perm, ?_⟩
  rw [List.pairwise_iff_getElem]
  intro i j hi hj hij
  have hlen := hr.len
  have h := hs i j (Nat.zero_le _) (le_of_lt hij) (by rw [← hlen]; exact hj)
  unfold keyAt at h
  rw [List.getElem?_eq_getElem hi, List.getElem?_eq_getElem hj] at h
  rw [hk]
  simpa using h

theorem lessByTimestamp_ordersBy :
    OrdersBy lessByTimestamp (fun m : ParsedMessage => m.OriginalTimestamp) := by
  intro x y
  rfl

end SortProofs

/-! ## The parser (parser.go) -/

set_option maxRecDepth 100000

theorem string_length_eq_zero_iff (s : String) : s.length = 0 ↔ s = "" := by
  obtain ⟨l⟩ := s
  cases l with
  | nil => simp
  | cons c l =>
    simp only [String.length, List.length_cons, Nat.add_one_ne_zero, false_iff]
    intro h
    have := congrArg String.data h
    simp at this

/-- What one iteration of the scanning loop appends is what the specification
selects for that line. -/
theorem scanLoop_cons (decode : String → Option Message) (line : String) (rest : List String)
    (lineNum : Nat) (messages : List ParsedMessage) :
    scanLoop decode (line :: rest) lineNum messages =
      scanLoop decode rest (lineNum + 1)
        (messages ++ (qualifies decode (lineNum + 1) line).toList) := by
  rw [scanLoop]
  simp only [qualifies]
  by_cases h1 : lineNum + 1 = 1 ∧ line = sentinelLine
  · simp [h1]
  · by_cases h2 : line.length = 0
    · have h2' : line = "" := (string_length_eq_zero_iff line).1 h2
      simp [h1, h2, h2']
    · have h2' : ¬ line = "" := fun h => h2 ((string_length_eq_zero_iff line).2 h)
      rw [if_neg h1, if_neg h2, if_neg (by tauto)]
      cases hd : decode (unquoteLine line) with
      | none => simp
      | some msg =>
        simp only []
        by_cases h3 : msg.Fixture = none ∧ msg.AmericanFootballMatchState = none
        · have : ¬ ((msg.Fixture.isSome = true ∨ msg.AmericanFootballMatchState.isSome = true) ∧
              msg.Header.MessageGuid ≠ "" ∧ msg.Header.TimeStampUtc ≠ 0) := by
            rintro ⟨h | h, -⟩
            · rw [h3.1] at h; cases h
            · rw [h3.2] at h; cases h
          rw [if_pos h3, if_neg this]; simp
        · rw [if_neg h3]
          have hsome : msg.Fixture.isSome = true ∨ msg.AmericanFootballMatchState.isSome = true := by
            by_contra hcon
            apply h3
            push_neg at hcon
            constructor
            · cases hf : msg.Fixture with
              | none => rfl
              | some f => rw [hf] at hcon; simp at hcon
            · cases hf : msg.AmericanFootballMatchState with
              | none => rfl
              | some f => rw [hf] at hcon; simp at hcon
          by_cases h4 : msg.Header.MessageGuid = "" ∨ msg.Header.TimeStampUtc.IsZero = true
          · have : ¬ ((msg.Fixture.isSome = true ∨ msg.AmericanFootballMatchState.isSome = true) ∧
                msg.Header.MessageGuid ≠ "" ∧ msg.Header.TimeStampUtc ≠ 0) := by
              rintro ⟨-, hg, ht⟩
              rcases h4 with h | h
              · exact hg h
              · exact ht (by simpa [Time.IsZero] using h)
            rw [if_pos h4, if_neg this]; simp
          · have : (msg.Fixture.isSome = true ∨ msg.AmericanFootballMatchState.isSome = true) ∧
                msg.Header.MessageGuid ≠ "" ∧ msg.Header.TimeStampUtc ≠ 0 := by
              refine ⟨hsome, fun h => h4 (Or.inl h), fun h => h4 (Or.inr ?_)⟩
              simp [Time.IsZero, h]
            rw [if_neg h4, if_pos this]; simp

/-- The scanning loop appends to `messages`, in file order, the records the
specification selects, the next line being numbered `lineNum + 1`. -/
theorem scanLoop_eq (decode : String → Option Message) (lines : List String) :
    ∀ (lineNum : Nat) (messages : List ParsedMessage),
      scanLoop decode lines lineNum messages =
        messages ++ qualifyingFrom decode (lineNum + 1) lines := by
  induction lines with
  | nil => intro n acc; simp [scanLoop, qualifyingFrom]
  | cons line rest ih =>
    intro n acc
    rw [scanLoop_cons, ih, qualifyingFrom]
    cases qualifies decode (n + 1) line <;> simp


theorem qualifies_lineNumber (decode : String → Option Message) (n : Nat) (line : String)
    (m : ParsedMessage) (h : qualifies decode n line = some m) : m.LineNumber = n := by
  unfold qualifies at h
  split_ifs at h
  cases hd : decode (unquoteLine line) with
  | none => rw [hd] at h; cases h
  | some msg =>
    rw [hd] at h
    simp only [] at h
    split_ifs at h
    cases h
    rfl

/-- Every record of `qualifyingFrom` carries the number of its line, which is
at least `first`, and the numbers increase strictly along the list. -/
theorem qualifyingFrom_lineNumbers (decode : String → Option Message) (lines : List String) :
    ∀ first : Nat,
      (∀ m ∈ qualifyingFrom decode first lines, first ≤ m.LineNumber) ∧
      (qualifyingFrom decode first lines).Pairwise (fun x y => x.LineNumber < y.LineNumber) := by
  induction lines with
  | nil => intro first; simp [qualifyingFrom]
  | cons line rest ih =>
    intro first
    obtain ⟨hge, hpw⟩ := ih (first + 1)
    rw [qualifyingFrom]
    cases hq : qualifies decode first line with
    | none =>
      exact ⟨fun m hm => Nat.le_of_succ_le (hge m hm), hpw⟩
    | some m0 =>
      have h0 := qualifies_lineNumber decode first line m0 hq
      refine ⟨?_, ?_⟩
      · intro m hm
        rcases List.mem_cons.1 hm with rfl | hm
        · exact h0.ge
        · exact Nat.le_of_succ_le (hge m hm)
      · refine List.pairwise_cons.2 ⟨fun m hm => ?_, hpw⟩
        rw [h0]
        exact hge m hm

/-- A record belongs to `qualifyingFrom` exactly when some line of the file
contributes it under its own number. -/
theorem mem_qualifyingFrom (decode : String → Option Message) (lines : List String)
    (m : ParsedMessage) :
    ∀ first : Nat,
      m ∈ qualifyingFrom decode first lines ↔
        ∃ (i : Nat) (line : String), lines[i]? = some line ∧
          qualifies decode (first + i) line = some m := by
  induction lines with
  | nil => intro first; simp [qualifyingFrom]
  | cons line rest ih =>
    intro first
    have hrest : m ∈ qualifyingFrom decode (first + 1) rest ↔
        ∃ (i : Nat) (l : String), (line :: rest)[i + 1]? = some l ∧
          qualifies decode (first + (i + 1)) l = some m := by
      rw [ih (first + 1)]
      constructor
      · rintro ⟨i, l, hl, hq⟩
        exact ⟨i, l, by simpa using hl, by rw [← hq]; congr 1; omega⟩
      · rintro ⟨i, l, hl, hq⟩
        exact ⟨i, l, by simpa using hl, by rw [← hq]; congr 1; omega⟩
    have hsplit : (∃ (i : Nat) (l : String), (line :: rest)[i]? = some l ∧
          qualifies decode (first + i) l = some m) ↔
        qualifies decode first line = some m ∨
          ∃ (i : Nat) (l : String), (line :: rest)[i + 1]? = some l ∧
            qualifies decode (first + (i + 1)) l = some m := by
      constructor
      · rintro ⟨i, l, hl, hq⟩
        cases i with
        | zero =>
          left
          simp at hl
          subst hl
          simpa using hq
        | succ i => exact Or.inr ⟨i, l, hl, hq⟩
      · rintro (hq | ⟨i, l, hl, hq⟩)
        · exact ⟨0, line, by simp, by simpa using hq⟩
        · exact ⟨i + 1, l, hl, hq⟩
    rw [hsplit, ← hrest, qualifyingFrom]
    cases hq : qualifies decode first line with
    | none => simp
    | some m0 =>
      simp only [List.mem_cons, Option.some.injEq]
      constructor
      · rintro (h | h)
        · exact Or.inl h.symm
        · exact Or.inr h
      · rintro (h | h)
        · exact Or.inl h.symm
        · exact Or.inr h

/-- For a file opened and scanned without an I/O error, and any implementation
of `sort.Slice` that meets the contract of a sort on the collected records (its
result is a permutation of them in which no record is `less` than an earlier
one), `ParseFile` returns, with no error, a sequence that is non-decreasing in
`OriginalTimestamp`, is a permutation of the qualifying records of the file,
holds a record exactly when some line contributes it under its 1-based line
number, holds no line number twice, and is empty when no line qualifies. -/
theorem ParseFile_of_sort_contract
    (sortSlice : (ParsedMessage → ParsedMessage → Bool) → List ParsedMessage → List ParsedMessage)
    (decode : String → Option Message) (file : File)
    (hopen : file.openErr = none) (hscan : file.scanErr = none)
    (hperm : (sortSlice lessByTimestamp (scanLoop decode file.lines 0 [])).Perm
      (scanLoop decode file.lines 0 []))
    (hsorted : (sortSlice lessByTimestamp (scanLoop decode file.lines 0 [])).Pairwise
      (fun x y => lessByTimestamp y x = false)) :
    ∃ out : List ParsedMessage,
      ParseFile sortSlice decode file = .ok out ∧
      out.Pairwise (fun x y => x.OriginalTimestamp ≤ y.OriginalTimestamp) ∧
      out.Perm (qualifyingRecords decode file.lines) ∧
      (∀ m, m ∈ out ↔ ∃ (i : Nat) (line : String), file.lines[i]? = some line ∧
        qualifies decode (i + 1) line = some m) ∧
      (out.map (fun m => m.LineNumber)).Nodup ∧
      (qualifyingRecords decode file.lines = [] → out = []) := by
  have hcollect : scanLoop decode file.lines 0 [] = qualifyingRecords decode file.lines := by
    rw [scanLoop_eq]; rfl
  rw [hcollect] at hperm hsorted
  refine ⟨sortSlice lessByTimestamp (qualifyingRecords decode file.lines), ?_, ?_, hperm, ?_, ?_, ?_⟩
  · simp only [ParseFile, hopen, hscan, hcollect]
  · refine hsorted.imp ?_
    intro x y h
    simpa [lessByTimestamp, Time.Before] using h
  · intro m
    rw [hperm.mem_iff]
    unfold qualifyingRecords
    rw [mem_qualifyingFrom]
    constructor
    · rintro ⟨i, l, hl, hq⟩; exact ⟨i, l, hl, by rw [← hq]; congr 1; omega⟩
    · rintro ⟨i, l, hl, hq⟩; exact ⟨i, l, hl, by rw [← hq]; congr 1; omega⟩
  · have hnodup : ((qualifyingRecords decode file.lines).map (fun m => m.LineNumber)).Nodup := by
      have := (qualifyingFrom_lineNumbers decode file.lines 1).2
      unfold qualifyingRecords
      rw [List.Nodup, List.pairwise_map]
      exact this.imp (fun h => Nat.ne_of_lt h)
    exact (hperm.map _).nodup_iff.2 hnodup
  · intro hnil
    have hp := hperm
    rw [hnil] at hp
    rw [hnil]
    exact hp.eq_nil


/-- C1.  For every file opened and scanned without an I/O error, `ParseFile`
returns, with no error, a sequence that is non-decreasing in
`OriginalTimestamp`, is a permutation of the qualifying records of the file
(those of the lines, other than a sentinel first line and empty lines, that
decode after unquoting to an envelope with a payload variant, a non-empty guid
and a non-zero header timestamp), holds a record exactly when some line
contributes it under its 1-based line number, holds no line number twice, and is
empty when no line qualifies. -/
theorem ParseFile_sorted_qualifying
    (decode : String → Option Message) (file : File)
    (hopen : file.openErr = none) (hscan : file.scanErr = none) :
    ∃ out : List ParsedMessage,
      ParseFile Slice decode file = .ok out ∧
      out.Pairwise (fun x y => x.OriginalTimestamp ≤ y.OriginalTimestamp) ∧
      out.Perm (qualifyingRecords decode file.lines) ∧
      (∀ m, m ∈ out ↔ ∃ (i : Nat) (line : String), file.lines[i]? = some line ∧
        qualifies decode (i + 1) line = some m) ∧
      (out.map (fun m => m.LineNumber)).Nodup ∧
      (qualifyingRecords decode file.lines = [] → out = []) :=
  ParseFile_of_sort_contract Slice decode file hopen hscan
    (Slice_sorts lessByTimestamp _ lessByTimestamp_ordersBy _).1
    (Slice_sorts lessByTimestamp _ lessByTimestamp_ordersBy _).2

/-- C1 (witness).  The sample file of six lines: the records of lines 4 and 2
are returned, in that order. -/
theorem ParseFile_sorted_qualifying_witness :
    lineNumbers (ParseFile Slice sampleDecode sampleFile) = some [4, 2] ∧
    ∃ out : List ParsedMessage,
      ParseFile Slice sampleDecode sampleFile = .ok out ∧
      out.Pairwise (fun x y => x.OriginalTimestamp ≤ y.OriginalTimestamp) ∧
      out.Perm (qualifyingRecords sampleDecode sampleFile.lines) ∧
      (∀ m, m ∈ out ↔ ∃ (i : Nat) (line : String), sampleFile.lines[i]? = some line ∧
        qualifies sampleDecode (i + 1) line = some m) ∧
      (out.map (fun m => m.LineNumber)).Nodup ∧
      (qualifyingRecords sampleDecode sampleFile.lines = [] → out = []) :=
  ⟨by decide, ParseFile_sorted_qualifying sampleDecode sampleFile rfl rfl⟩

/-- C10 (failing files).  `ParseFile` accepts the empty file, and the file of a
sentinel, an empty line and a line that is not JSON, with an empty sequence and
no error; `run` then indexes `messages[0]` and panics before the replay. -/
theorem run_panics_on_empty_result :
    lineNumbers (ParseFile Slice sampleDecode (File.mk none [] none)) = some [] ∧
    run Slice sampleDecode (File.mk none [] none) none kickoff 100000000 [] =
      .panicked "index out of range [0] with length 0" ∧
    lineNumbers (ParseFile Slice sampleDecode (File.mk none [sentinelLine, "", "not json"] none))
      = some [] ∧
    run Slice sampleDecode (File.mk none [sentinelLine, "", "not json"] none) none kickoff
      100000000 [] = .panicked "index out of range [0] with length 0" := by
  decide


/-- C2 (failing file).  Thirteen records, the first stamped one second after
the other twelve, which share a timestamp.  `ParseFile` with `sort.Slice`
returns the twelve tied records with the record of line 7 ahead of those of
lines 2 to 6: not in file order. -/
theorem ParseFile_ties_out_of_file_order :
    lineNumbers (ParseFile Slice tiedDecode tiedFile) =
      some [7, 2, 3, 4, 5, 6, 8, 9, 10, 11, 12, 13, 1] ∧
    timestamps (ParseFile Slice tiedDecode tiedFile) =
      some [kickoff, kickoff, kickoff, kickoff, kickoff, kickoff, kickoff, kickoff, kickoff,
        kickoff, kickoff, kickoff, kickoff + 1000000000] := by
  decide


/-! ## The replay loop (sender.go) -/

theorem receive_open_cons (buf : List ParsedMessage) (m : ParsedMessage) (closed : Bool) :
    receive (Chan.mk (m :: buf) closed) = some (m, Chan.mk buf closed) := rfl

theorem receive_open_nil : receive (Chan.mk [] false) = none := rfl

/-- An iteration that observes no cancellation leaves the run inside its loop.
On an open channel a receive takes the first queued record, when there is one,
and that record is handed to `SendMessage`; a heartbeat tick takes none. -/
theorem loopBody_step (speed : Int) (s : ReplayState) (t : Turn)
    (hfired : t.fired ≠ SelectCase.done) (hwait : t.waitCancelled = false) :
    ∃ s', loopBody speed s t = .running s' ∧
      (s.messages.closed = false →
        s'.messages.closed = false ∧
        sentRecords s' = sentRecords s ++ s.messages.buf.take (recvCount [t]) ∧
        s'.messages.buf = s.messages.buf.drop (recvCount [t])) := by
  obtain ⟨clock, lastSent, ⟨buf, closed⟩, sent, hbs⟩ := s
  unfold loopBody
  cases hf : t.fired with
  | done => exact absurd hf hfired
  | tick =>
    refine ⟨_, rfl, fun h => ⟨h, ?_, ?_⟩⟩
    · simp [sentRecords, recvCount, hf]
    · simp [recvCount, hf]
  | recv =>
    have hc : recvCount [t] = 1 := by simp [recvCount, hf]
    rw [hc]
    cases buf with
    | nil =>
      cases closed with
      | false =>
        exact ⟨_, rfl, fun h => ⟨h, by simp [sentRecords], rfl⟩⟩
      | true =>
        simp only [receive, if_true, hwait, Bool.false_eq_true, if_false]
        split_ifs
        · exact ⟨_, rfl, fun h => by cases h⟩
        · exact ⟨_, rfl, fun h => by cases h⟩
    | cons m rest =>
      simp only [receive_open_cons, hwait, Bool.false_eq_true, if_false]
      split_ifs
      · exact ⟨_, rfl, fun h => ⟨h, by simp [sentRecords, sendAndRecord], by simp [sendAndRecord]⟩⟩
      · exact ⟨_, rfl, fun h => ⟨h, by simp [sentRecords, sendAndRecord], by simp [sendAndRecord]⟩⟩

theorem recvCount_cons (t : Turn) (ts : List Turn) :
    recvCount (t :: ts) = recvCount [t] + recvCount ts := by
  unfold recvCount
  rw [List.countP_cons, List.countP_cons, List.countP_nil]
  omega

/-- Over turns that observe no cancellation the loop does not return, and on an
open channel the records handed to `SendMessage` are the first queued records,
one for each receive, in order. -/
theorem replayLoop_running (speed : Int) (turns : List Turn) :
    ∀ s : ReplayState, neverCancelled turns →
      ∃ s', replayLoop speed turns s = .running s' ∧
        (s.messages.closed = false →
          s'.messages.closed = false ∧
          sentRecords s' = sentRecords s ++ s.messages.buf.take (recvCount turns) ∧
          s'.messages.buf = s.messages.buf.drop (recvCount turns)) := by
  induction turns with
  | nil =>
    intro s _
    exact ⟨s, rfl, fun h => ⟨h, by simp [recvCount], by simp [recvCount]⟩⟩
  | cons t ts ih =>
    intro s hnc
    obtain ⟨hf, hw⟩ := hnc t (List.mem_cons_self _ _)
    obtain ⟨s1, h1, hinv1⟩ := loopBody_step speed s t hf hw
    obtain ⟨s2, h2, hinv2⟩ := ih s1 (fun u hu => hnc u (List.mem_cons_of_mem _ hu))
    refine ⟨s2, ?_, fun h => ?_⟩
    · rw [replayLoop, h1]; exact h2
    · obtain ⟨hc1, hs1, hb1⟩ := hinv1 h
      obtain ⟨hc2, hs2, hb2⟩ := hinv2 hc1
      refine ⟨hc2, ?_, ?_⟩
      · rw [recvCount_cons t ts, hs2, hs1, hb1, List.take_add, List.append_assoc]
      · rw [recvCount_cons t ts, hb2, hb1, List.drop_drop]

/-- A run that is inside its loop after `turns` goes through the loop body once
more on the next turn. -/
theorem replayLoop_append_running (speed : Int) (turns : List Turn) (t : Turn) :
    ∀ s s' : ReplayState, replayLoop speed turns s = .running s' →
      replayLoop speed (turns ++ [t]) s = loopBody speed s' t := by
  induction turns with
  | nil =>
    intro s s' h
    simp only [replayLoop] at h
    cases h
    simp only [List.nil_append, replayLoop]
    cases loopBody speed s t <;> rfl
  | cons u us ih =>
    intro s s' h
    rw [replayLoop] at h
    rw [List.cons_append, replayLoop]
    cases hu : loopBody speed s u with
    | running s1 =>
      rw [hu] at h
      exact ih s1 s' h
    | returned err s1 =>
      rw [hu] at h
      cases h

/-- The loop body returns no error. -/
theorem loopBody_returned_nil (speed : Int) (s : ReplayState) (t : Turn)
    (err : Option SendError) (s' : ReplayState)
    (h : loopBody speed s t = .returned err s') : err = none := by
  unfold loopBody at h
  cases hf : t.fired with
  | done =>
    rw [hf] at h
    simp only [Outcome.returned.injEq] at h
    exact h.1.symm
  | tick => rw [hf] at h; cases h
  | recv =>
    rw [hf] at h
    simp only [] at h
    cases hr : receive s.messages with
    | none => rw [hr] at h; cases h
    | some p =>
      rw [hr] at h
      obtain ⟨msg, ch⟩ := p
      simp only [] at h
      split_ifs at h
      · simp only [Outcome.returned.injEq] at h
        exact h.1.symm

/-- The loop returns no error, whatever the turns. -/
theorem replayLoop_returned_nil (speed : Int) (turns : List Turn) :
    ∀ (s : ReplayState) (err : Option SendError) (s' : ReplayState),
      replayLoop speed turns s = .returned err s' → err = none := by
  induction turns with
  | nil => intro s err s' h; simp only [replayLoop] at h; cases h
  | cons t ts ih =>
    intro s err s' h
    rw [replayLoop] at h
    cases ht : loopBody speed s t with
    | running s1 =>
      rw [ht] at h
      exact ih s1 err s' h
    | returned e s1 =>
      rw [ht] at h
      simp only [Outcome.returned.injEq] at h
      rw [← h.1]
      exact loopBody_returned_nil speed s t e s1 ht

/-- C4 (as amended).  `ReplayMessages` does not complete when its input is
exhausted.  For every input channel, once the initial heartbeat has succeeded
and for as long as no cancellation is observed, the run stays inside its loop,
also after the last record has been consumed; on a channel that is not closed
every receive hands the next queued record to `SendMessage`, so the records
sent are the first records of the input, one for each receive, in input order,
and the rest is still queued.  The run returns, with no error, at the first
turn whose `select` observes the cancellation: when the outer `select` proceeds
with `ctx.Done()`, and when a record has been received, the pacing wait is
entered and its `select` proceeds with `ctx.Done()`; no run returns an error
after the initial heartbeat has succeeded. -/
theorem ReplayMessages_returns_only_on_cancellation
    (start : Time) (messages : Chan) (speed : Int) (turns : List Turn)
    (hnever : neverCancelled turns) :
    (∃ s, ReplayMessages none start messages speed turns = .running s ∧
      (messages.closed = false →
        sentRecords s = messages.buf.take (recvCount turns) ∧
        s.messages.buf = messages.buf.drop (recvCount turns)) ∧
      (∀ t : Turn, t.fired = SelectCase.done →
        ReplayMessages none start messages speed (turns ++ [t]) =
          .returned none { s with clock := s.clock + t.blocked }) ∧
      (∀ (t : Turn) (msg : ParsedMessage) (ch : Chan), t.fired = SelectCase.recv →
        receive s.messages = some (msg, ch) → s.lastSent.IsZero = false →
        s.clock + t.blocked - s.lastSent ≤ speed → t.waitCancelled = true →
        ReplayMessages none start messages speed (turns ++ [t]) =
          .returned none { s with clock := s.clock + t.blocked, messages := ch })) ∧
    (∀ (all : List Turn) (err : Option SendError) (s : ReplayState),
      ReplayMessages none start messages speed all = .returned err s → err = none) := by
  obtain ⟨s, hs, hinv⟩ :=
    replayLoop_running speed turns (ReplayState.mk start 0 messages [] []) hnever
  refine ⟨⟨s, hs, fun h => ?_, fun t ht => ?_, fun t msg ch ht hr hz hp hw => ?_⟩,
    fun all err s' h => replayLoop_returned_nil speed all _ err s' h⟩
  · obtain ⟨-, h1, h2⟩ := hinv h
    exact ⟨by simpa [sentRecords] using h1, h2⟩
  · show replayLoop speed (turns ++ [t]) _ = _
    rw [replayLoop_append_running speed turns t _ s hs]
    simp only [loopBody, ht]
  · show replayLoop speed (turns ++ [t]) _ = _
    rw [replayLoop_append_running speed turns t _ s hs]
    simp only [loopBody, ht, hr, hw, hz, hp, and_self, if_true]

/-- C4 (witness).  Two records queued, cadence 100 ms, the first delivered at
once in 2 ms: the run is inside its loop with the first record sent and the
second queued; it returns with no error when the outer `select` then proceeds
with `ctx.Done()`, and when the second record is received and the pacing
`select` proceeds with `ctx.Done()`. -/
theorem ReplayMessages_returns_only_on_cancellation_witness :
    ((∃ s, ReplayMessages none kickoff twoQueued 100000000 [promptDelivery] = .running s ∧
      (twoQueued.closed = false →
        sentRecords s = twoQueued.buf.take (recvCount [promptDelivery]) ∧
        s.messages.buf = twoQueued.buf.drop (recvCount [promptDelivery])) ∧
      (∀ t : Turn, t.fired = SelectCase.done →
        ReplayMessages none kickoff twoQueued 100000000 ([promptDelivery] ++ [t]) =
          .returned none { s with clock := s.clock + t.blocked }) ∧
      (∀ (t : Turn) (msg : ParsedMessage) (ch : Chan), t.fired = SelectCase.recv →
        receive s.messages = some (msg, ch) → s.lastSent.IsZero = false →
        s.clock + t.blocked - s.lastSent ≤ 100000000 → t.waitCancelled = true →
        ReplayMessages none kickoff twoQueued 100000000 ([promptDelivery] ++ [t]) =
          .returned none { s with clock := s.clock + t.blocked, messages := ch })) ∧
    (∀ (all : List Turn) (err : Option SendError) (s : ReplayState),
      ReplayMessages none kickoff twoQueued 100000000 all = .returned err s → err = none)) ∧
    sentRecords (ReplayMessages none kickoff twoQueued 100000000 [promptDelivery]).state =
      [sampleRecord 1 kickoff] ∧
    ReplayMessages none kickoff twoQueued 100000000 [promptDelivery, cancelledSelect] =
      .returned none (ReplayState.mk (kickoff + 7000000) kickoff
        (Chan.mk [sampleRecord 2 kickoff] false)
        [Transmission.mk kickoff (sampleRecord 1 kickoff) none] []) ∧
    ReplayMessages none kickoff twoQueued 100000000 [promptDelivery, cancelledWait] =
      .returned none (ReplayState.mk (kickoff + 2000000) kickoff (Chan.mk [] false)
        [Transmission.mk kickoff (sampleRecord 1 kickoff) none] []) :=
  ⟨ReplayMessages_returns_only_on_cancellation kickoff twoQueued 100000000 [promptDelivery]
    (by unfold neverCancelled; decide), by decide, by decide, by decide⟩

/-- C4 (counterexample).  One record, the initial heartbeat succeeds, nothing
is cancelled: after the record has been sent and the channel is drained the run
is inside its loop, and no sequence of turns without a cancellation makes it
return. -/
theorem ReplayMessages_does_not_return_when_drained :
    (ReplayMessages none kickoff (Chan.mk [sampleRecord 1 kickoff] false) 100000000
      [promptDelivery, quietMinute]).hasReturned = false ∧
    (ReplayMessages none kickoff (Chan.mk [sampleRecord 1 kickoff] false) 100000000
      [promptDelivery, quietMinute]).state.messages.buf = [] ∧
    (ReplayMessages none kickoff (Chan.mk [sampleRecord 1 kickoff] false) 100000000
      [promptDelivery, quietMinute]).state.sent.map (fun x => x.record) =
        [sampleRecord 1 kickoff] ∧
    ¬ ∃ turns : List Turn, neverCancelled turns ∧
      (ReplayMessages none kickoff (Chan.mk [sampleRecord 1 kickoff] false) 100000000
        turns).hasReturned = true := by
  refine ⟨by decide, by decide, by decide, ?_⟩
  rintro ⟨turns, hnc, hret⟩
  obtain ⟨s, hs, -⟩ := replayLoop_running 100000000 turns
    (ReplayState.mk kickoff 0 (Chan.mk [sampleRecord 1 kickoff] false) [] []) hnc
  have : ReplayMessages none kickoff (Chan.mk [sampleRecord 1 kickoff] false) 100000000 turns
      = .running s := hs
  rw [this] at hret
  cases hret

/-- C3 (failing run).  Cadence 100 ms, three records waiting in the channel,
no heartbeat tick, no cancellation, every `SendMessage` succeeding after 2 ms:
the three transmissions happen at 0 ms, 100 ms and 102 ms after the start, so
the third follows the second by 2 ms and the whole span is 102 ms, less than
twice the cadence. -/
theorem ReplayMessages_third_send_unpaced :
    successfulSendInstants
      (ReplayMessages none kickoff
        (Chan.mk [sampleRecord 1 kickoff, sampleRecord 2 kickoff, sampleRecord 3 kickoff] false)
        100000000 [promptDelivery, promptDelivery, promptDelivery]) =
      [kickoff, kickoff + 100000000, kickoff + 102000000] := by
  decide


end EventProcessor
